import Mathlib

/-!
Verification development for the avto.net scraper core
(merge/export stage, URL deduplicator, listing-identity extraction,
price resolution, selector resolver, image-URL normalization and the
page handlers' error branches), shallowly embedded from the TypeScript
sources in `src/main.ts`, `src/routes.ts`, `src/stats.ts`.
-/

namespace Scraper

/-- JavaScript values as they occur in the dataset records handled by
`mergeAndExport`: strings, numbers, booleans, `null` and `undefined`. -/
inductive JVal where
  | str (s : String)
  | num (n : Int)
  | bool (b : Bool)
  | null
  | undefVal
deriving DecidableEq, Repr

/-- A dataset record: a JavaScript object modelled as an association list
from property names to values.  Earlier entries shadow later ones, so
prepending a pair overrides a property. -/
abbrev Obj := List (String × JVal)

/-- Property read `o[k]`: `none` when the key is absent. -/
def jlookup : Obj → String → Option JVal
  | [], _ => none
  | (k', v) :: r, k => if k' = k then some v else jlookup r k

/-- Property read with JavaScript semantics: an absent key reads as
`undefined`. -/
def jlookupU (o : Obj) (k : String) : JVal :=
  (jlookup o k).getD .undefVal

/-- Set property `k` to `v` (the JS `obj[k] = v` / object-literal field). -/
def setKey (o : Obj) (k : String) (v : JVal) : Obj :=
  (k, v) :: o

/-- JavaScript object spread `{...a, ...b}`: `b`'s properties override
`a`'s.  Modelled for lookup semantics by putting `b`'s entries first. -/
def spreadObj (a b : Obj) : Obj := b ++ a

/-- JavaScript truthiness of a property read (`undefined`, `null`, `""`,
`0` and `false` are falsy). -/
def jsTruthy : Option JVal → Bool
  | none => false
  | some .undefVal => false
  | some .null => false
  | some (.str s) => s ≠ ""
  | some (.num n) => n ≠ 0
  | some (.bool b) => b

/-- The listing identity of a record: the `listingId` property when it is
a string, read as `""` otherwise (this mirrors `as string` casts followed
by truthiness checks in `mergeAndExport`, where a `null`/absent
`listingId` behaves like an empty identity). -/
def idOf (o : Obj) : String :=
  match jlookup o "listingId" with
  | some (.str s) => s
  | _ => ""

/-- The filter `i.label === 'search-listing'` from `mergeAndExport`. -/
def isSearchListing (i : Obj) : Bool :=
  jlookup i "label" = some (.str "search-listing")

/-- The filter `i.url && !i.label` from `mergeAndExport`. -/
def isDetailItem (i : Obj) : Bool :=
  jsTruthy (jlookup i "url") && !jsTruthy (jlookup i "label")

/-- JS `Map` with string keys, insertion-ordered: `set` on an existing key
updates the value in place, otherwise appends. -/
abbrev DMap := List (String × Obj)

/-- `Map.prototype.set`. -/
def mapSet : DMap → String → Obj → DMap
  | [], k, v => [(k, v)]
  | (k', v') :: m, k, v =>
    if k' = k then (k, v) :: m else (k', v') :: mapSet m k v

/-- `Map.prototype.get`. -/
def mapGet : DMap → String → Option Obj
  | [], _ => none
  | (k', v) :: m, k => if k' = k then some v else mapGet m k

/-- `Map.prototype.delete`. -/
def mapDelete (m : DMap) (k : String) : DMap :=
  m.filter (fun p => p.1 ≠ k)

/-- The keys of a map, in insertion order. -/
def mapKeys (m : DMap) : List String := m.map (·.1)

/-- `mergeAndExport`'s detail index: `for (const detail of detailPages) {
const id = detail.listingId; if (id) detailMap.set(id, detail) }`. -/
def buildDetailMap (ds : List Obj) : DMap :=
  ds.foldl (fun m d => if idOf d ≠ "" then mapSet m (idOf d) d else m) []

/-- The merged record `{...listing, ...detail, searchPage:
listing.searchPage, thumbnail: listing.thumbnail}` from `mergeAndExport`:
detail fields override the summary's, then the summary's `searchPage` and
`thumbnail` are re-asserted. -/
def mergeRec (listing detail : Obj) : Obj :=
  setKey (setKey (spreadObj listing detail) "searchPage" (jlookupU listing "searchPage"))
    "thumbnail" (jlookupU listing "thumbnail")

/-- The per-summary loop of `mergeAndExport`: each search listing is
either enriched with the mapped detail record (which is then consumed
from the map) or pushed with `detailScraped: false`. -/
def mergeLoop : DMap → List Obj → List Obj × DMap
  | dm, [] => ([], dm)
  | dm, l :: ls =>
    match (if idOf l ≠ "" then mapGet dm (idOf l) else none) with
    | some d =>
      let r := mergeLoop (mapDelete dm (idOf l)) ls
      (mergeRec l d :: r.1, r.2)
    | none =>
      let r := mergeLoop dm ls
      (setKey l "detailScraped" (.bool false) :: r.1, r.2)

/-- `mergeAndExport` (src/main.ts): filter the accumulated dataset into
search listings and detail pages, index details by listing identity,
merge each summary with its detail (detail wins; summary's page number
and thumbnail preserved), flag unmatched summaries, then append leftover
unconsumed details. -/
def mergeAndExport (items : List Obj) : List Obj :=
  let searchListings := items.filter isSearchListing
  let detailPages := items.filter isDetailItem
  let dm := buildDetailMap detailPages
  let r := mergeLoop dm searchListings
  r.1 ++ r.2.map (·.2)

/-- The trailing-slash strip `url.replace(/\/+$/, '')` of
`CrawlerStats.deduplicateUrls`: removes every trailing `/`. -/
def stripTrailingSlashes (s : String) : String :=
  ⟨(s.data.reverse.dropWhile (· = '/')).reverse⟩

/-- `url.toLowerCase()`, per character (the URLs handled are ASCII). -/
def lowerStr (s : String) : String := ⟨s.data.map Char.toLower⟩

/-- The URL fingerprint of `CrawlerStats.deduplicateUrls`:
`url.replace(/\/+$/, '').toLowerCase()`. -/
def fingerprint (u : String) : String := lowerStr (stripTrailingSlashes u)

/-- `CrawlerStats.deduplicateUrls` (src/stats.ts): walk the URLs in
order; a URL whose fingerprint is already in `seenUrls` is skipped,
otherwise its fingerprint is inserted and the URL is returned.  Returns
the admitted URLs and the updated `seenUrls` set (modelled as the list of
fingerprints in insertion order). -/
def deduplicateUrls (seen : List String) : List String → List String × List String
  | [] => ([], seen)
  | url :: rest =>
    let normalized := fingerprint url
    if normalized ∈ seen then deduplicateUrls seen rest
    else
      let r := deduplicateUrls (seen ++ [normalized]) rest
      (url :: r.1, r.2)

/-- A sequence of `deduplicateUrls` calls against one `CrawlerStats`
instance, threading the `seenUrls` state; returns the per-call outputs
and the final state. -/
def runBatches (seen : List String) : List (List String) → List (List String) × List String
  | [] => ([], seen)
  | b :: bs =>
    let r := deduplicateUrls seen b
    let r' := runBatches r.2 bs
    (r.1 :: r'.1, r'.2)

/-- Listing-identity extraction, `extractListingId` (src/routes.ts):
`url.match(/[?&]id=(\d+)/i)?.[1] ?? ''`.  `tryIdAt` attempts the part of
the pattern after the `[?&]` anchor: a case-insensitive `id=` followed by
at least one digit, returning the digit run (the capture group). -/
def tryIdAt : List Char → Option (List Char)
  | i :: d :: '=' :: rest =>
    if (i = 'i' ∨ i = 'I') ∧ (d = 'd' ∨ d = 'D') then
      let ds := rest.takeWhile Char.isDigit
      if ds = [] then none else some ds
    else none
  | _ => none

/-- The leftmost-match scan of the regex `/[?&]id=(\d+)/i`: at each `?`
or `&` the tail is tried with `tryIdAt`; the first success wins. -/
def scanListingId : List Char → Option (List Char)
  | [] => none
  | c :: rest =>
    if c = '?' ∨ c = '&' then
      match tryIdAt rest with
      | some ds => some ds
      | none => scanListingId rest
    else scanListingId rest

/-- `extractListingId` (src/routes.ts): the first capture of
`/[?&]id=(\d+)/i`, or the empty string when the regex does not match. -/
def extractListingId (url : String) : String :=
  match scanListingId url.data with
  | some ds => ⟨ds⟩
  | none => ""

/-- The query string `k1=v1&k2=v2&...` of a parameter list. -/
def paramsJoin : List (String × String) → String
  | [] => ""
  | [p] => p.1 ++ "=" ++ p.2
  | p :: ps => p.1 ++ "=" ++ p.2 ++ "&" ++ paramsJoin ps

/-- A detail URL assembled from a base (no query part) and a list of
`key=value` parameters, used to state identity-extraction claims. -/
def mkUrl (base : String) (params : List (String × String)) : String :=
  base ++ "?" ++ paramsJoin params

/-- A parameter the identity regex can match: key spelled `id` in any
casing and a value starting with a digit. -/
def isIdParamB (p : String × String) : Bool :=
  lowerStr p.1 = "id" &&
    (match p.2.data with
     | c :: _ => c.isDigit
     | [] => false)

/-- Well-formedness of a query parameter for the identity-extraction
statements: nonempty key, and no `?`, `&` or `=` inside keys or
values. -/
abbrev ParamWf (p : String × String) : Prop :=
  p.1 ≠ "" ∧ (∀ c ∈ p.1.data, c ≠ '?' ∧ c ≠ '&' ∧ c ≠ '=') ∧
    (∀ c ∈ p.2.data, c ≠ '?' ∧ c ≠ '&' ∧ c ≠ '=')

/-- The identity a combined-output record exposes as a detail-bearing
record: `none` for records carrying the `detailScraped` flag
(summaries without a matched detail), the record's listing identity
otherwise. -/
def detailIdent (r : Obj) : Option String :=
  if (jlookup r "detailScraped").isSome then none else some (idOf r)

/-- JavaScript whitespace as recognized by `\s`, `trim()` (the common
code points: space, tab, line and paragraph separators, no-break
space, BOM). -/
def isJsSpace (c : Char) : Bool :=
  c = ' ' ∨ c = '\t' ∨ c = '\n' ∨ c = '\r' ∨ c = '\x0b' ∨ c = '\x0c' ∨
  c = '\u00A0' ∨ c = '\u2028' ∨ c = '\u2029' ∨ c = '\uFEFF'

/-- `String.prototype.trim()`. -/
def jsTrim (s : String) : String :=
  ⟨((s.data.dropWhile isJsSpace).reverse.dropWhile isJsSpace).reverse⟩

/-- A character matched by the class `[\d.]` of the price regex. -/
def isPriceChar (c : Char) : Bool := c.isDigit || c = '.'

/-- The price regex `/[\d.]+\s*€/` anchored at the start of the list: a
nonempty run of digits/dots, optional whitespace, then `€`; returns the
matched text. -/
def priceMatchAt (l : List Char) : Option (List Char) :=
  let ds := l.takeWhile isPriceChar
  if ds = [] then none
  else
    let rest := l.drop ds.length
    let ws := rest.takeWhile isJsSpace
    match rest.drop ws.length with
    | '€' :: _ => some (ds ++ ws ++ ['€'])
    | _ => none

/-- Leftmost match of `/[\d.]+\s*€/`: try each position left to right. -/
def firstPriceMatch : List Char → Option (List Char)
  | [] => none
  | c :: cs =>
    match priceMatchAt (c :: cs) with
    | some m => some m
    | none => firstPriceMatch cs

/-- `text.match(/[\d.]+\s*€/)` as a Boolean test. -/
def matchesPriceRe (s : String) : Bool := (firstPriceMatch s.data).isSome

/-- `[...new Set(xs)]`: deduplicate keeping the first occurrence of each
element, preserving order (JS `Set` iteration order). -/
def jsDedupGo (seen : List String) : List String → List String
  | [] => []
  | x :: xs =>
    if x ∈ seen then jsDedupGo seen xs
    else x :: jsDedupGo (x :: seen) xs

/-- `[...new Set(xs)]`. -/
def jsDedup (l : List String) : List String := jsDedupGo [] l

/-- `extractPrice` (detail-page handler, Bootstrap-card variant): the
page's `.card-body .h2 span, .card-body .h1 span` text contents are
trimmed and filtered by the price regex; after `Set` deduplication, two
or more distinct texts give `original = first, current = second`, one
gives only `current`, none falls back to the first `.font-weight-bold
span` text's regex match.  Returns `(current, original)`. -/
def extractPrice (spanTexts : List String) (fallbackSpan : Option String) :
    Option String × Option String :=
  let priceTexts := (spanTexts.map jsTrim).filter matchesPriceRe
  let unique := jsDedup priceTexts
  let primary : Option String × Option String :=
    match unique with
    | u0 :: u1 :: _ => (some u1, some u0)
    | [u0] => (some u0, none)
    | [] => (none, none)
  match primary.1 with
  | some _ => primary
  | none =>
    match fallbackSpan with
    | none => primary
    | some t =>
      match firstPriceMatch t.data with
      | some m => (some (jsTrim ⟨m⟩), primary.2)
      | none => primary

/-- What a selector query can produce on a page: an exception, no
element, or an element whose `textContent()` is a nullable string. -/
inductive SelResult where
  | err
  | noEl
  | el (text : Option String)

/-- `safeText` (src/routes.ts): try the selectors in order inside
`try`/`catch`; return the first non-empty trimmed text, else `null`.
A raising strategy or a missing/empty result falls through to the next
selector. -/
def safeText (page : String → SelResult) : List String → Option String
  | [] => none
  | sel :: rest =>
    match page sel with
    | .err => safeText page rest
    | .noEl => safeText page rest
    | .el none => safeText page rest
    | .el (some text) =>
      if jsTrim text ≠ "" then some (jsTrim text) else safeText page rest

/-- Modelled from the spec (§4.1 Selector Resolver): "Strategies are
tried strictly in order; the resolver returns the first strategy's
result that is non-empty after trimming. If all strategies fail or
raise, the field is absent (never throws outward)." -/
def resolveFieldSpec (page : String → SelResult) (strategies : List String) :
    Option String :=
  strategies.findSome? fun sel =>
    match page sel with
    | .el (some text) => if jsTrim text ≠ "" then some (jsTrim text) else none
    | _ => none

/-- `url.replace(/\/small\//g, '/big/')`: JavaScript global replace,
scanning left to right and never re-matching inside a replacement, so
overlapping occurrences (as in `/small/small/`) are only replaced at the
first position. -/
def replSmall : List Char → List Char
  | '/' :: 's' :: 'm' :: 'a' :: 'l' :: 'l' :: '/' :: rest =>
    '/' :: 'b' :: 'i' :: 'g' :: '/' :: replSmall rest
  | c :: cs => c :: replSmall cs
  | [] => []

/-- `url.replace(/\/thumb\//g, '/big/')`, same global-replace scan. -/
def replThumb : List Char → List Char
  | '/' :: 't' :: 'h' :: 'u' :: 'm' :: 'b' :: '/' :: rest =>
    '/' :: 'b' :: 'i' :: 'g' :: '/' :: replThumb rest
  | c :: cs => c :: replThumb cs
  | [] => []

/-- The image-URL normalization applied in `extractImages`
(src/routes.ts): `url.replace(/\/small\//g, '/big/').replace(/\/thumb\//g,
'/big/')`. -/
def normalizeImageUrl (u : String) : String := ⟨replThumb (replSmall u.data)⟩

/-- `extractImages` (src/routes.ts), given the collected `src`/data
attribute values and the zoom-link hrefs: deduplicate via `Set`, then
normalize each URL to the full-size variant. -/
def extractImages (imgUrls zoomLinks : List String) : List String :=
  (jsDedup (imgUrls ++ zoomLinks)).map normalizeImageUrl

/-- `CrawlerStats` counters plus the seen-URL fingerprint set
(src/stats.ts). -/
structure CrawlStats where
  pagesProcessed : Nat
  listingsFound : Nat
  listingsEnqueued : Nat
  detailsScraped : Nat
  errors : Nat
  seenUrls : List String
deriving DecidableEq, Repr

/-- `CrawlerStats.recordError`. -/
def recordError (s : CrawlStats) : CrawlStats := { s with errors := s.errors + 1 }

/-- `CrawlerStats.recordPage`. -/
def recordPage (s : CrawlStats) (listingCount : Nat) : CrawlStats :=
  { s with pagesProcessed := s.pagesProcessed + 1,
           listingsFound := s.listingsFound + listingCount }

/-- `CrawlerStats.recordEnqueued`. -/
def recordEnqueued (s : CrawlStats) (count : Nat) : CrawlStats :=
  { s with listingsEnqueued := s.listingsEnqueued + count }

/-- `CrawlerStats.deduplicateUrls` as the instance method (threads the
`seenUrls` member). -/
def statsDedup (s : CrawlStats) (urls : List String) : List String × CrawlStats :=
  let r := deduplicateUrls s.seenUrls urls
  (r.1, { s with seenUrls := r.2 })

/-- A search-results page as the handler observes it: whether the
expected result markers appeared within the bounded wait
(`page.waitForSelector(..., { timeout: 30_000 })`), the listing URLs
found by `extractListingUrls`, and the next-page URL. -/
structure SearchPageView where
  contentAppeared : Bool
  listingUrls : List String
  nextPageUrl : Option String

/-- A detail page as the handler observes it: whether the expected
content markers appeared within the bounded wait, the extracted record
body, the request URL and the scrape timestamp. -/
structure DetailPageView where
  contentAppeared : Bool
  extracted : Obj
  url : String
  scrapedAt : String

/-- `handleSearchResults` (src/routes.ts): on timeout waiting for the
result markers the handler records one error and abandons the page
(nothing extracted, nothing enqueued); otherwise it deduplicates the
listing URLs, records the page, enqueues the new URLs (recording the
enqueue count when nonempty) and enqueues the next page when found.
Returns the updated stats, the enqueued detail URLs and the enqueued
next-page URL. -/
def handleSearchResults (s : CrawlStats) (p : SearchPageView) :
    CrawlStats × List String × Option String :=
  if !p.contentAppeared then (recordError s, [], none)
  else
    let r := statsDedup s p.listingUrls
    let s1 := recordPage r.2 p.listingUrls.length
    let s2 := if r.1.length > 0 then recordEnqueued s1 r.1.length else s1
    (s2, r.1, p.nextPageUrl)

/-- The record pushed by the DETAIL handler: the extracted data with
`url`, `listingId` and `scrapedAt` asserted. -/
def finishDetailRecord (p : DetailPageView) : Obj :=
  setKey (setKey (setKey p.extracted "url" (.str p.url))
      "listingId" (.str (extractListingId p.url)))
    "scrapedAt" (.str p.scrapedAt)

/-- The DETAIL handler (src/routes.ts): on timeout waiting for the
detail-page content it records one error and abandons the page (no
`Dataset.pushData`); otherwise it pushes exactly one record.  Returns
the updated stats and the list of pushed records. -/
def detailHandler (s : CrawlStats) (p : DetailPageView) : CrawlStats × List Obj :=
  if !p.contentAppeared then (recordError s, [])
  else (s, [finishDetailRecord p])

/-! ### Helper lemmas -/

theorem jsDedupGo_sublist (l seen : List String) : (jsDedupGo seen l).Sublist l := by
  induction l generalizing seen with
  | nil => simp [jsDedupGo]
  | cons x xs ih =>
    by_cases h : x ∈ seen
    · simp only [jsDedupGo, if_pos h]
      exact (ih seen).cons x
    · simp only [jsDedupGo, if_neg h]
      exact (ih (x :: seen)).cons₂ x

theorem jsDedupGo_not_mem_seen (l seen : List String) :
    ∀ x ∈ jsDedupGo seen l, x ∉ seen := by
  induction l generalizing seen with
  | nil => simp [jsDedupGo]
  | cons y ys ih =>
    by_cases h : y ∈ seen
    · simpa only [jsDedupGo, if_pos h] using ih seen
    · simp only [jsDedupGo, if_neg h]
      intro x hx
      rw [List.mem_cons] at hx
      rcases hx with rfl | hx
      · exact h
      · intro hs
        exact ih (y :: seen) x hx (List.mem_cons_of_mem y hs)

theorem jsDedupGo_nodup (l seen : List String) : (jsDedupGo seen l).Nodup := by
  induction l generalizing seen with
  | nil => simp [jsDedupGo]
  | cons y ys ih =>
    by_cases h : y ∈ seen
    · simpa only [jsDedupGo, if_pos h] using ih seen
    · simp only [jsDedupGo, if_neg h, List.nodup_cons]
      refine ⟨fun hy => ?_, ih (y :: seen)⟩
      exact jsDedupGo_not_mem_seen ys (y :: seen) y hy (List.mem_cons_self y seen)

/-! ### Claim theorems -/

/-- Claim C8: the selector resolver `safeText` tries the strategies
strictly in the given order and returns the trimmed text of the first
strategy whose result is non-empty after trimming; if every strategy
finds nothing, returns empty text, or raises, `safeText` returns null
and never propagates an exception (a raising strategy, modelled as
`SelResult.err`, is skipped like a miss).  Stated as equality with
`resolveFieldSpec`, the resolver written directly from the spec's
words. -/
theorem C8_selector_resolver_contract (page : String → SelResult)
    (strategies : List String) :
    safeText page strategies = resolveFieldSpec page strategies := by
  induction strategies with
  | nil => rfl
  | cons sel rest ih =>
    simp only [safeText, resolveFieldSpec, List.findSome?_cons]
    cases hp : page sel with
    | err => exact ih
    | noEl => exact ih
    | el t =>
      cases t with
      | none => exact ih
      | some text =>
        by_cases h : jsTrim text ≠ ""
        · simp [h]
        · simp only [ne_eq, not_not] at h
          simp [h, ih, resolveFieldSpec]

/-- Claim C9: on a page (search-results or detail) whose expected
content markers do not appear within the bounded wait, the handler
increments the run-level error counter exactly once, abandons the page
and emits no record (no dataset push, nothing enqueued); all other
crawl counters and the seen-URL set are unchanged. -/
theorem C9_page_timeout_atomicity (s : CrawlStats) (p : DetailPageView)
    (q : SearchPageView) (hp : p.contentAppeared = false)
    (hq : q.contentAppeared = false) :
    detailHandler s p = ({ s with errors := s.errors + 1 }, []) ∧
    handleSearchResults s q = ({ s with errors := s.errors + 1 }, [], none) := by
  constructor
  · simp [detailHandler, hp, recordError]
  · simp [handleSearchResults, hq, recordError]

theorem C9_page_timeout_atomicity_witness :
    detailHandler ⟨3, 7, 2, 1, 0, ["f"]⟩
        ⟨false, [("title", .str "t")], "https://x/details.asp?id=1", "now"⟩ =
      (⟨3, 7, 2, 1, 1, ["f"]⟩, []) ∧
    handleSearchResults ⟨3, 7, 2, 1, 0, ["f"]⟩ ⟨false, ["https://x"], some "https://y"⟩ =
      (⟨3, 7, 2, 1, 1, ["f"]⟩, [], none) :=
  C9_page_timeout_atomicity ⟨3, 7, 2, 1, 0, ["f"]⟩ _ _ rfl rfl

/-- Claim C4: two-price ordering rule of `extractPrice`: when the
deduplicated list of price texts found in the price container has two
(or more) distinct entries, the first-occurring text becomes the
original price and the second the current price; with exactly one
distinct text only the current price is set; with none (and no match by
the `.font-weight-bold span` fallback either) both are null.  The
deduplicated list keeps first occurrences in order (`Sublist`) without
duplicates. -/
theorem C4_two_price_ordering (spanTexts : List String) (fb : Option String) :
    (∀ u0 u1 rest,
        jsDedup ((spanTexts.map jsTrim).filter matchesPriceRe) = u0 :: u1 :: rest →
        extractPrice spanTexts fb = (some u1, some u0)) ∧
    (∀ u0, jsDedup ((spanTexts.map jsTrim).filter matchesPriceRe) = [u0] →
        extractPrice spanTexts fb = (some u0, none)) ∧
    (jsDedup ((spanTexts.map jsTrim).filter matchesPriceRe) = [] →
        (∀ t, fb = some t → firstPriceMatch t.data = none) →
        extractPrice spanTexts fb = (none, none)) ∧
    (jsDedup ((spanTexts.map jsTrim).filter matchesPriceRe)).Sublist
      ((spanTexts.map jsTrim).filter matchesPriceRe) ∧
    (jsDedup ((spanTexts.map jsTrim).filter matchesPriceRe)).Nodup := by
  refine ⟨?_, ?_, ?_, jsDedupGo_sublist _ _, jsDedupGo_nodup _ _⟩
  · intro u0 u1 rest h
    simp [extractPrice, h]
  · intro u0 h
    simp [extractPrice, h]
  · intro h hfb
    cases fb with
    | none => simp [extractPrice, h]
    | some t => simp [extractPrice, h, hfb t rfl]

theorem C4_two_price_ordering_witness :
    jsDedup (([String.mk ['1', '5', '.', '4', '7', '0', ' ', '€'],
        String.mk ['1', '3', '.', '9', '9', '0', ' ', '€'],
        String.mk ['1', '5', '.', '4', '7', '0', ' ', '€']].map jsTrim).filter
        matchesPriceRe) =
      [String.mk ['1', '5', '.', '4', '7', '0', ' ', '€'],
       String.mk ['1', '3', '.', '9', '9', '0', ' ', '€']] ∧
    extractPrice [String.mk ['1', '5', '.', '4', '7', '0', ' ', '€'],
        String.mk ['1', '3', '.', '9', '9', '0', ' ', '€'],
        String.mk ['1', '5', '.', '4', '7', '0', ' ', '€']] none =
      (some (String.mk ['1', '3', '.', '9', '9', '0', ' ', '€']),
       some (String.mk ['1', '5', '.', '4', '7', '0', ' ', '€'])) :=
  ⟨by decide, (C4_two_price_ordering _ none).1 _ _ [] (by decide)⟩

theorem ofNatAux_toNat (n : Nat) (h : n.isValidChar) :
    (Char.ofNatAux n h).toNat = n := by
  simp [Char.ofNatAux, Char.toNat, UInt32.toNat]

theorem toLower_eq_slash {c : Char} : c.toLower = '/' ↔ c = '/' := by
  constructor
  · intro h
    simp only [Char.toLower] at h
    by_cases hc : c.toNat ≥ 65 ∧ c.toNat ≤ 90
    · exfalso
      rw [if_pos hc] at h
      have hv : (c.toNat + 32).isValidChar := by
        left
        omega
      rw [Char.ofNat, dif_pos hv] at h
      have := congrArg Char.toNat h
      rw [ofNatAux_toNat] at this
      have h47 : ('/' : Char).toNat = 47 := rfl
      omega
    · rwa [if_neg hc] at h
  · rintro rfl
    decide

theorem dropWhile_slash_map_toLower (l : List Char) :
    (l.map Char.toLower).dropWhile (· = '/') =
      (l.dropWhile (· = '/')).map Char.toLower := by
  induction l with
  | nil => rfl
  | cons c cs ih =>
    by_cases h : c = '/'
    · subst h
      simpa using ih
    · have h' : ¬ c.toLower = '/' := fun hl => h (toLower_eq_slash.mp hl)
      simp [List.dropWhile_cons, h, h']

theorem fingerprint_lower_invariant (u v : String)
    (h : lowerStr u = lowerStr v) : fingerprint u = fingerprint v := by
  have hd : u.data.map Char.toLower = v.data.map Char.toLower := by
    have := congrArg String.data h
    simpa [lowerStr] using this
  simp only [fingerprint, lowerStr, stripTrailingSlashes]
  congr 1
  have hrev : u.data.reverse.map Char.toLower = v.data.reverse.map Char.toLower := by
    simpa [List.map_reverse] using congrArg List.reverse hd
  calc ((u.data.reverse.dropWhile (· = '/')).reverse).map Char.toLower
      = ((u.data.reverse.dropWhile (· = '/')).map Char.toLower).reverse := by
        simp [List.map_reverse]
    _ = ((u.data.reverse.map Char.toLower).dropWhile (· = '/')).reverse := by
        rw [dropWhile_slash_map_toLower]
    _ = ((v.data.reverse.map Char.toLower).dropWhile (· = '/')).reverse := by rw [hrev]
    _ = ((v.data.reverse.dropWhile (· = '/')).map Char.toLower).reverse := by
        rw [dropWhile_slash_map_toLower]
    _ = ((v.data.reverse.dropWhile (· = '/')).reverse).map Char.toLower := by
        simp [List.map_reverse]

theorem fingerprint_trailing_slash (u : String) :
    fingerprint (u ++ "/") = fingerprint u := by
  simp [fingerprint, stripTrailingSlashes, String.data_append, List.dropWhile_cons]

theorem dedup_append (xs ys seen : List String) :
    deduplicateUrls seen (xs ++ ys) =
      ((deduplicateUrls seen xs).1 ++ (deduplicateUrls (deduplicateUrls seen xs).2 ys).1,
       (deduplicateUrls (deduplicateUrls seen xs).2 ys).2) := by
  induction xs generalizing seen with
  | nil => simp [deduplicateUrls]
  | cons x xs ih =>
    by_cases h : fingerprint x ∈ seen
    · simp [deduplicateUrls, h, ih]
    · simp [deduplicateUrls, h, ih]

theorem runBatches_join (bs : List (List String)) (seen : List String) :
    ((runBatches seen bs).1.flatten, (runBatches seen bs).2) =
      deduplicateUrls seen bs.flatten := by
  induction bs generalizing seen with
  | nil => simp [runBatches, deduplicateUrls]
  | cons b bs ih =>
    have h := ih (deduplicateUrls seen b).2
    simp only [runBatches, List.flatten_cons, dedup_append]
    rw [Prod.ext_iff] at h ⊢
    simp only [List.flatten] at h ⊢
    exact ⟨by rw [← h.1], h.2⟩

theorem dedup_out_not_seen (urls seen : List String) :
    ∀ u ∈ (deduplicateUrls seen urls).1, fingerprint u ∉ seen := by
  induction urls generalizing seen with
  | nil => simp [deduplicateUrls]
  | cons v rest ih =>
    by_cases h : fingerprint v ∈ seen
    · simpa [deduplicateUrls, h] using ih seen
    · simp only [deduplicateUrls, if_neg h]
      intro u hu
      rw [List.mem_cons] at hu
      rcases hu with rfl | hu
      · exact h
      · intro hs
        exact ih (seen ++ [fingerprint v]) u hu (by simp [hs])

theorem dedup_count_one (urls seen : List String) (u : String) (hu : u ∈ urls)
    (hseen : fingerprint u ∉ seen) :
    (deduplicateUrls seen urls).1.countP (fun v => fingerprint v = fingerprint u) = 1 := by
  induction urls generalizing seen with
  | nil => cases hu
  | cons v rest ih =>
    by_cases h : fingerprint v ∈ seen
    · have hne : u ≠ v := fun he => hseen (he ▸ h)
      have hu' : u ∈ rest := by
        rcases List.mem_cons.mp hu with rfl | hm
        · exact absurd h hseen
        · exact hm
      simpa [deduplicateUrls, h] using ih seen hu' hseen
    · simp only [deduplicateUrls, if_neg h]
      by_cases hfp : fingerprint v = fingerprint u
      · have hzero :
            (deduplicateUrls (seen ++ [fingerprint v]) rest).1.countP
              (fun w => fingerprint w = fingerprint u) = 0 := by
          rw [List.countP_eq_zero]
          intro w hw
          have := dedup_out_not_seen rest (seen ++ [fingerprint v]) w hw
          simp only [List.mem_append, List.mem_singleton, not_or] at this
          simp only [decide_eq_true_eq]
          intro he
          exact this.2 (he.trans hfp.symm)
        rw [hfp] at hzero
        simp [List.countP_cons, hfp, hzero]
      · have hu' : u ∈ rest := by
          rcases List.mem_cons.mp hu with rfl | hm
          · exact absurd rfl hfp
          · exact hm
        have hseen' : fingerprint u ∉ seen ++ [fingerprint v] := by
          simp only [List.mem_append, List.mem_singleton, not_or]
          exact ⟨hseen, fun he => hfp he.symm⟩
        simp [List.countP_cons, hfp, ih _ hu' hseen']

theorem dedup_find_first (urls seen : List String) (u : String)
    (hseen : fingerprint u ∉ seen) :
    (deduplicateUrls seen urls).1.find? (fun v => fingerprint v = fingerprint u) =
      urls.find? (fun v => fingerprint v = fingerprint u) := by
  induction urls generalizing seen with
  | nil => simp [deduplicateUrls]
  | cons v rest ih =>
    by_cases h : fingerprint v ∈ seen
    · have hfp : fingerprint v ≠ fingerprint u := fun he => hseen (he ▸ h)
      rw [List.find?_cons_of_neg _ (by simp [hfp])]
      simp only [deduplicateUrls, if_pos h]
      exact ih seen hseen
    · simp only [deduplicateUrls, if_neg h]
      by_cases hfp : fingerprint v = fingerprint u
      · rw [List.find?_cons_of_pos _ (by simp [hfp]), List.find?_cons_of_pos _ (by simp [hfp])]
      · have hseen' : fingerprint u ∉ seen ++ [fingerprint v] := by
          simp only [List.mem_append, List.mem_singleton, not_or]
          exact ⟨hseen, fun he => hfp he.symm⟩
        rw [List.find?_cons_of_neg _ (by simp [hfp]), List.find?_cons_of_neg _ (by simp [hfp])]
        exact ih _ hseen'

/-- Claim C2: the deduplicator fingerprint identifies URLs differing
only by letter case or a trailing slash, and admission is exactly-once:
across any sequence of `deduplicateUrls` calls on one `CrawlerStats`
instance (equivalently, one call on the concatenation), each
fingerprint's first-seen URL is returned exactly once, the first
returned URL with a given fingerprint is the first input URL with that
fingerprint, and a URL whose fingerprint was already seen is never
returned again. -/
theorem C2_dedup_exactly_once :
    (∀ u : String, fingerprint (u ++ "/") = fingerprint u) ∧
    (∀ u v : String, lowerStr u = lowerStr v → fingerprint u = fingerprint v) ∧
    (∀ (seen : List String) (bs : List (List String)),
      ((runBatches seen bs).1.flatten, (runBatches seen bs).2) =
        deduplicateUrls seen bs.flatten) ∧
    (∀ (seen urls : List String), ∀ u ∈ (deduplicateUrls seen urls).1,
      fingerprint u ∉ seen) ∧
    (∀ (seen urls : List String) (u : String), u ∈ urls → fingerprint u ∉ seen →
      (deduplicateUrls seen urls).1.countP (fun v => fingerprint v = fingerprint u) = 1) ∧
    (∀ (seen urls : List String) (u : String), fingerprint u ∉ seen →
      (deduplicateUrls seen urls).1.find? (fun v => fingerprint v = fingerprint u) =
        urls.find? (fun v => fingerprint v = fingerprint u)) :=
  ⟨fingerprint_trailing_slash, fingerprint_lower_invariant,
   fun seen bs => runBatches_join bs seen,
   fun seen urls => dedup_out_not_seen urls seen,
   fun seen urls u hu hs => dedup_count_one urls seen u hu hs,
   fun seen urls u hs => dedup_find_first urls seen u hs⟩

theorem C2_dedup_exactly_once_witness :
    fingerprint ("https://www.avto.net/Ads" ++ "/") = fingerprint "https://www.avto.net/Ads" ∧
    fingerprint "https://www.avto.net/ads" = fingerprint "https://WWW.AVTO.NET/Ads" ∧
    (deduplicateUrls [] ["https://A/", "https://a", "https://b"]).1.countP
      (fun v => fingerprint v = fingerprint "https://a") = 1 ∧
    (deduplicateUrls [] ["https://A/", "https://a", "https://b"]).1.find?
        (fun v => fingerprint v = fingerprint "https://a") =
      ["https://A/", "https://a", "https://b"].find?
        (fun v => fingerprint v = fingerprint "https://a") :=
  ⟨C2_dedup_exactly_once.1 "https://www.avto.net/Ads",
   C2_dedup_exactly_once.2.1 _ _ (by decide),
   C2_dedup_exactly_once.2.2.2.2.1 [] _ "https://a" (by decide) (by simp),
   C2_dedup_exactly_once.2.2.2.2.2 [] _ "https://a" (by simp)⟩

theorem jlookup_append (a b : Obj) (k : String) :
    jlookup (a ++ b) k = (jlookup a k).orElse (fun _ => jlookup b k) := by
  induction a with
  | nil => simp [jlookup]
  | cons p r ih =>
    by_cases h : p.1 = k
    · simp [jlookup, h]
    · simp [jlookup, h, ih]

theorem jlookup_setKey (o : Obj) (k' k : String) (v : JVal) :
    jlookup (setKey o k' v) k = if k' = k then some v else jlookup o k := rfl

theorem jlookup_mergeRec (l d : Obj) (k : String) (h1 : k ≠ "searchPage")
    (h2 : k ≠ "thumbnail") :
    jlookup (mergeRec l d) k = (jlookup d k).orElse (fun _ => jlookup l k) := by
  simp only [mergeRec, jlookup_setKey, spreadObj, jlookup_append]
  rw [if_neg (fun h => h2 h.symm), if_neg (fun h => h1 h.symm)]

theorem jlookup_listingId_of_ne (o : Obj) (h : idOf o ≠ "") :
    jlookup o "listingId" = some (.str (idOf o)) := by
  unfold idOf at h ⊢
  cases hj : jlookup o "listingId" with
  | none => rw [hj] at h; exact absurd rfl h
  | some v =>
    cases v with
    | str s => rfl
    | num n => rw [hj] at h; exact absurd rfl h
    | bool b => rw [hj] at h; exact absurd rfl h
    | null => rw [hj] at h; exact absurd rfl h
    | undefVal => rw [hj] at h; exact absurd rfl h

theorem idOf_mergeRec (l d : Obj) (hd : idOf d ≠ "") :
    idOf (mergeRec l d) = idOf d := by
  unfold idOf
  rw [jlookup_mergeRec l d "listingId" (by decide) (by decide),
    jlookup_listingId_of_ne d hd]
  rfl

theorem detailScraped_mergeRec (l d : Obj) (hl : jlookup l "detailScraped" = none)
    (hd : jlookup d "detailScraped" = none) :
    jlookup (mergeRec l d) "detailScraped" = none := by
  rw [jlookup_mergeRec l d "detailScraped" (by decide) (by decide), hd, hl]
  rfl

theorem idOf_setKey_detailScraped (l : Obj) (v : JVal) :
    idOf (setKey l "detailScraped" v) = idOf l := by
  unfold idOf
  rw [jlookup_setKey, if_neg (by decide)]

theorem mapGet_set_self (m : DMap) (k : String) (v : Obj) :
    mapGet (mapSet m k v) k = some v := by
  induction m with
  | nil => simp [mapSet, mapGet]
  | cons p r ih =>
    by_cases h : p.1 = k
    · simp [mapSet, mapGet, h]
    · simp [mapSet, mapGet, h, ih]

theorem mapGet_set_ne (m : DMap) (k' k : String) (v : Obj) (h : k' ≠ k) :
    mapGet (mapSet m k' v) k = mapGet m k := by
  induction m with
  | nil => simp [mapSet, mapGet, h]
  | cons p r ih =>
    by_cases hp : p.1 = k'
    · simp [mapSet, mapGet, hp, h, ih]
    · simp only [mapSet, hp, if_false]
      by_cases hk : p.1 = k
      · simp [mapGet, hk]
      · simp [mapGet, hk, ih]

theorem mapKeys_cons (p : String × Obj) (r : DMap) :
    mapKeys (p :: r) = p.1 :: mapKeys r := rfl

theorem mapGet_mem {m : DMap} {k : String} {v : Obj} (h : mapGet m k = some v) :
    (k, v) ∈ m := by
  induction m with
  | nil => simp [mapGet] at h
  | cons p r ih =>
    by_cases hp : p.1 = k
    · simp only [mapGet, hp, if_pos] at h
      have he : (k, v) = p := by
        rw [← hp]
        cases h
        rfl
      rw [he]
      exact List.mem_cons_self p r
    · simp only [mapGet, hp, if_false] at h
      exact List.mem_cons_of_mem p (ih h)

theorem mem_mapSet {m : DMap} {k : String} {v : Obj} {p : String × Obj}
    (h : p ∈ mapSet m k v) : p ∈ m ∨ p = (k, v) := by
  induction m with
  | nil => simpa [mapSet] using h
  | cons q r ih =>
    by_cases hq : q.1 = k
    · simp only [mapSet, hq, if_true] at h
      rcases List.mem_cons.mp h with rfl | hm
      · right; rfl
      · left; exact List.mem_cons_of_mem q hm
    · simp only [mapSet, hq, if_false] at h
      rcases List.mem_cons.mp h with rfl | hm
      · left; exact List.mem_cons_self q r
      · rcases ih hm with hm' | hm'
        · left; exact List.mem_cons_of_mem q hm'
        · right; exact hm'

theorem mapKeys_set_mem (m : DMap) (k : String) (v : Obj) (h : k ∈ mapKeys m) :
    mapKeys (mapSet m k v) = mapKeys m := by
  induction m with
  | nil => simp [mapKeys] at h
  | cons p r ih =>
    by_cases hp : p.1 = k
    · simp [mapSet, hp, mapKeys_cons]
    · rw [mapKeys_cons, List.mem_cons] at h
      have h' : k ∈ mapKeys r := by
        rcases h with he | hm
        · exact absurd he.symm hp
        · exact hm
      simp only [mapSet, hp, if_false, mapKeys_cons, ih h']

theorem mapKeys_set_not_mem (m : DMap) (k : String) (v : Obj)
    (h : k ∉ mapKeys m) : mapKeys (mapSet m k v) = mapKeys m ++ [k] := by
  induction m with
  | nil => rfl
  | cons p r ih =>
    rw [mapKeys_cons, List.mem_cons, not_or] at h
    have hp : p.1 ≠ k := fun he => h.1 he.symm
    simp only [mapSet, hp, if_false, mapKeys_cons, ih h.2]
    rfl

theorem mapKeys_set_nodup (m : DMap) (k : String) (v : Obj)
    (h : (mapKeys m).Nodup) : (mapKeys (mapSet m k v)).Nodup := by
  by_cases hm : k ∈ mapKeys m
  · rwa [mapKeys_set_mem m k v hm]
  · rw [mapKeys_set_not_mem m k v hm]
    simp [List.nodup_append, h, hm]

theorem mem_mapDelete {m : DMap} {k : String} {p : String × Obj} :
    p ∈ mapDelete m k ↔ p ∈ m ∧ p.1 ≠ k := by
  simp [mapDelete, List.mem_filter]

theorem mapKeys_delete (m : DMap) (k : String) :
    mapKeys (mapDelete m k) = (mapKeys m).filter (fun x => x ≠ k) := by
  induction m with
  | nil => rfl
  | cons p r ih =>
    by_cases hp : p.1 = k
    · have e1 : mapDelete (p :: r) k = mapDelete r k := by
        simp [mapDelete, List.filter_cons, hp]
      have e2 : (mapKeys (p :: r)).filter (fun x => x ≠ k) =
          (mapKeys r).filter (fun x => x ≠ k) := by
        simp [mapKeys_cons, List.filter_cons, hp]
      rw [e1, e2, ih]
    · have e1 : mapDelete (p :: r) k = p :: mapDelete r k := by
        simp [mapDelete, List.filter_cons, hp]
      have e2 : (mapKeys (p :: r)).filter (fun x => x ≠ k) =
          p.1 :: (mapKeys r).filter (fun x => x ≠ k) := by
        simp [mapKeys_cons, List.filter_cons, hp]
      rw [e1, e2, ← ih]
      rfl

theorem mapGet_of_not_mem_keys {m : DMap} {k : String} (h : k ∉ mapKeys m) :
    mapGet m k = none := by
  induction m with
  | nil => rfl
  | cons p r ih =>
    rw [mapKeys_cons, List.mem_cons, not_or] at h
    have hp : p.1 ≠ k := fun he => h.1 he.symm
    simp [mapGet, hp, ih h.2]

theorem buildDetailMap_mem {ds : List Obj} {p : String × Obj}
    (h : p ∈ buildDetailMap ds) : ∃ d ∈ ds, p = (idOf d, d) ∧ idOf d ≠ "" := by
  suffices haux : ∀ (ds : List Obj) (m : DMap),
      p ∈ ds.foldl (fun m d => if idOf d ≠ "" then mapSet m (idOf d) d else m) m →
      p ∈ m ∨ ∃ d ∈ ds, p = (idOf d, d) ∧ idOf d ≠ "" by
    rcases haux ds [] h with hm | hm
    · cases hm
    · exact hm
  intro ds
  induction ds with
  | nil =>
    intro m hm
    exact .inl hm
  | cons d rest ih =>
    intro m hm
    simp only [List.foldl_cons] at hm
    by_cases hd : idOf d ≠ ""
    · rw [if_pos hd] at hm
      rcases ih _ hm with hm' | hm'
      · rcases mem_mapSet hm' with hm'' | hm''
        · exact .inl hm''
        · exact .inr ⟨d, List.mem_cons_self d rest, hm'', hd⟩
      · rcases hm' with ⟨d', hd', he, hne⟩
        exact .inr ⟨d', List.mem_cons_of_mem d hd', he, hne⟩
    · rw [if_neg hd] at hm
      rcases ih _ hm with hm' | hm'
      · exact .inl hm'
      · rcases hm' with ⟨d', hd', he, hne⟩
        exact .inr ⟨d', List.mem_cons_of_mem d hd', he, hne⟩

theorem buildDetailMap_keys_nodup (ds : List Obj) :
    (mapKeys (buildDetailMap ds)).Nodup := by
  suffices haux : ∀ (ds : List Obj) (m : DMap), (mapKeys m).Nodup →
      (mapKeys (ds.foldl (fun m d => if idOf d ≠ "" then mapSet m (idOf d) d else m) m)).Nodup by
    exact haux ds [] (by simp [mapKeys])
  intro ds
  induction ds with
  | nil => exact fun m hm => hm
  | cons d rest ih =>
    intro m hm
    simp only [List.foldl_cons]
    by_cases hd : idOf d ≠ ""
    · rw [if_pos hd]
      exact ih _ (mapKeys_set_nodup m (idOf d) d hm)
    · rw [if_neg hd]
      exact ih _ hm

/-- Claim C1: merge round-trip.  With a dataset holding a SearchSummary
and a DetailRecord that share identity `"42"`, a SearchSummary with
identity `"43"` and no matching detail, and a DetailRecord with
identity `"44"` and no matching summary, `mergeAndExport` produces
exactly the merged `"42"` record (detail fields override; the summary's
`thumbnail` and `searchPage` preserved), then the `"43"` summary
flagged `detailScraped: false`, then the orphan `"44"` detail —
summaries in relative order followed by the leftover detail. -/
theorem C1_merge_roundtrip (s42 d42 s43 d44 : Obj)
    (h1 : jlookup s42 "label" = some (.str "search-listing"))
    (h2 : jlookup s42 "listingId" = some (.str "42"))
    (h3 : jlookup s43 "label" = some (.str "search-listing"))
    (h4 : jlookup s43 "listingId" = some (.str "43"))
    (h5 : jsTruthy (jlookup d42 "url") = true)
    (h6 : jlookup d42 "label" = none)
    (h7 : jlookup d42 "listingId" = some (.str "42"))
    (h8 : jsTruthy (jlookup d44 "url") = true)
    (h9 : jlookup d44 "label" = none)
    (h10 : jlookup d44 "listingId" = some (.str "44")) :
    mergeAndExport [s42, d42, s43, d44] =
      [mergeRec s42 d42, setKey s43 "detailScraped" (.bool false), d44] ∧
    (∀ k v, k ≠ "searchPage" → k ≠ "thumbnail" → jlookup d42 k = some v →
      jlookup (mergeRec s42 d42) k = some v) ∧
    jlookup (mergeRec s42 d42) "thumbnail" = some (jlookupU s42 "thumbnail") ∧
    jlookup (mergeRec s42 d42) "searchPage" = some (jlookupU s42 "searchPage") ∧
    jlookup (setKey s43 "detailScraped" (.bool false)) "detailScraped" =
      some (.bool false) ∧
    (mergeAndExport [s42, d42, s43, d44]).countP (fun r => idOf r = "42") = 1 := by
  have ei42 : idOf s42 = "42" := by simp [idOf, h2]
  have ei43 : idOf s43 = "43" := by simp [idOf, h4]
  have ed42 : idOf d42 = "42" := by simp [idOf, h7]
  have ed44 : idOf d44 = "44" := by simp [idOf, h10]
  have u1 : isSearchListing s42 = true := by unfold isSearchListing; rw [h1]; simp
  have u2 : isSearchListing d42 = false := by unfold isSearchListing; rw [h6]; simp
  have u3 : isSearchListing s43 = true := by unfold isSearchListing; rw [h3]; simp
  have u4 : isSearchListing d44 = false := by unfold isSearchListing; rw [h9]; simp
  have t1 : isDetailItem s42 = false := by
    unfold isDetailItem
    rw [h1]
    simp [jsTruthy]
  have t2 : isDetailItem d42 = true := by
    unfold isDetailItem
    rw [h5, h6]
    rfl
  have t3 : isDetailItem s43 = false := by
    unfold isDetailItem
    rw [h3]
    simp [jsTruthy]
  have t4 : isDetailItem d44 = true := by
    unfold isDetailItem
    rw [h8, h9]
    rfl
  have e1 : List.filter isSearchListing [s42, d42, s43, d44] = [s42, s43] := by
    simp [List.filter_cons, u1, u2, u3, u4]
  have e2 : List.filter isDetailItem [s42, d42, s43, d44] = [d42, d44] := by
    simp [List.filter_cons, t1, t2, t3, t4]
  have e3 : buildDetailMap [d42, d44] = [("42", d42), ("44", d44)] := by
    simp [buildDetailMap, ed42, ed44, mapSet]
  have e4 : mergeLoop [("42", d42), ("44", d44)] [s42, s43] =
      ([mergeRec s42 d42, setKey s43 "detailScraped" (.bool false)], [("44", d44)]) := by
    simp [mergeLoop, ei42, ei43, mapGet, mapDelete, List.filter]
  have emain : mergeAndExport [s42, d42, s43, d44] =
      [mergeRec s42 d42, setKey s43 "detailScraped" (.bool false), d44] := by
    simp [mergeAndExport, e1, e2, e3, e4]
  refine ⟨emain, ?_, ?_, ?_, ?_, ?_⟩
  · intro k v hk1 hk2 hv
    rw [jlookup_mergeRec s42 d42 k hk1 hk2, hv]
    rfl
  · simp [mergeRec, jlookup_setKey]
  · simp [mergeRec, jlookup_setKey]
  · simp [jlookup_setKey]
  · rw [emain]
    have i1 : idOf (mergeRec s42 d42) = "42" := by
      rw [idOf_mergeRec s42 d42 (by rw [ed42]; decide), ed42]
    have i2 : idOf (setKey s43 "detailScraped" (.bool false)) = "43" := by
      rw [idOf_setKey_detailScraped, ei43]
    simp [List.countP_cons, i1, i2, ed44]

theorem C1_merge_roundtrip_witness :
    mergeAndExport
        [[("label", JVal.str "search-listing"), ("listingId", JVal.str "42"),
          ("thumbnail", JVal.str "https://img/42s.jpg"), ("searchPage", JVal.num 1),
          ("title", JVal.str "summary title"), ("price", JVal.str "9 €")],
         [("url", JVal.str "https://x/details.asp?id=42"), ("listingId", JVal.str "42"),
          ("title", JVal.str "detail title")],
         [("label", JVal.str "search-listing"), ("listingId", JVal.str "43"),
          ("thumbnail", JVal.str "https://img/43s.jpg"), ("searchPage", JVal.num 1)],
         [("url", JVal.str "https://x/details.asp?id=44"), ("listingId", JVal.str "44")]] =
      [mergeRec
          [("label", JVal.str "search-listing"), ("listingId", JVal.str "42"),
           ("thumbnail", JVal.str "https://img/42s.jpg"), ("searchPage", JVal.num 1),
           ("title", JVal.str "summary title"), ("price", JVal.str "9 €")]
          [("url", JVal.str "https://x/details.asp?id=42"), ("listingId", JVal.str "42"),
           ("title", JVal.str "detail title")],
       setKey
          [("label", JVal.str "search-listing"), ("listingId", JVal.str "43"),
           ("thumbnail", JVal.str "https://img/43s.jpg"), ("searchPage", JVal.num 1)]
          "detailScraped" (JVal.bool false),
       [("url", JVal.str "https://x/details.asp?id=44"), ("listingId", JVal.str "44")]] ∧
    jlookup
        (mergeRec
          [("label", JVal.str "search-listing"), ("listingId", JVal.str "42"),
           ("thumbnail", JVal.str "https://img/42s.jpg"), ("searchPage", JVal.num 1),
           ("title", JVal.str "summary title"), ("price", JVal.str "9 €")]
          [("url", JVal.str "https://x/details.asp?id=42"), ("listingId", JVal.str "42"),
           ("title", JVal.str "detail title")]) "title" = some (JVal.str "detail title") := by
  have h := C1_merge_roundtrip
    [("label", JVal.str "search-listing"), ("listingId", JVal.str "42"),
     ("thumbnail", JVal.str "https://img/42s.jpg"), ("searchPage", JVal.num 1),
     ("title", JVal.str "summary title"), ("price", JVal.str "9 €")]
    [("url", JVal.str "https://x/details.asp?id=42"), ("listingId", JVal.str "42"),
     ("title", JVal.str "detail title")]
    [("label", JVal.str "search-listing"), ("listingId", JVal.str "43"),
     ("thumbnail", JVal.str "https://img/43s.jpg"), ("searchPage", JVal.num 1)]
    [("url", JVal.str "https://x/details.asp?id=44"), ("listingId", JVal.str "44")]
    (by decide) (by decide) (by decide) (by decide) (by decide) (by decide)
    (by decide) (by decide) (by decide) (by decide)
  exact ⟨h.1, h.2.1 "title" (JVal.str "detail title") (by decide) (by decide) (by decide)⟩

theorem getLast?_cons_or {α : Type} (a : α) (l : List α) :
    (a :: l).getLast? = l.getLast?.orElse (fun _ => some a) := by
  cases l with
  | nil => rfl
  | cons b m =>
    rw [List.getLast?_cons_cons]
    have hs : (b :: m).getLast?.isSome := by
      rw [List.getLast?_isSome]
      simp
    obtain ⟨y, hy⟩ := Option.isSome_iff_exists.mp hs
    rw [hy]
    rfl

theorem buildDetailMap_lookup_aux (ds : List Obj) (m : DMap) (k : String)
    (hk : k ≠ "") :
    mapGet (ds.foldl (fun m d => if idOf d ≠ "" then mapSet m (idOf d) d else m) m) k =
      ((ds.filter (fun d => idOf d = k)).getLast?).orElse (fun _ => mapGet m k) := by
  induction ds generalizing m with
  | nil => simp
  | cons d ds ih =>
    simp only [List.foldl_cons]
    by_cases hid : idOf d = k
    · have hne : idOf d ≠ "" := hid ▸ hk
      rw [List.filter_cons_of_pos (by simp [hid]), if_pos hne, hid,
        ih (mapSet m k d), mapGet_set_self, getLast?_cons_or]
      cases (ds.filter (fun d => idOf d = k)).getLast? <;> rfl
    · rw [List.filter_cons_of_neg (by simp [hid])]
      by_cases hz : idOf d ≠ ""
      · rw [if_pos hz, ih (mapSet m (idOf d) d), mapGet_set_ne m (idOf d) k d hid]
      · rw [if_neg hz, ih m]

theorem buildDetailMap_lookup (ds : List Obj) (k : String) (hk : k ≠ "") :
    mapGet (buildDetailMap ds) k = (ds.filter (fun d => idOf d = k)).getLast? := by
  rw [buildDetailMap, buildDetailMap_lookup_aux ds [] k hk]
  cases (ds.filter (fun d => idOf d = k)).getLast? <;> rfl

theorem buildDetailMap_empty_key (ds : List Obj) :
    mapGet (buildDetailMap ds) "" = none := by
  cases hg : mapGet (buildDetailMap ds) "" with
  | none => rfl
  | some v =>
    exfalso
    obtain ⟨d, _, he, hne⟩ := buildDetailMap_mem (mapGet_mem hg)
    exact hne ((Prod.mk.injEq _ _ _ _).mp he).1.symm

theorem mergeLoop_merge_step (dm : DMap) (l : Obj) (ls : List Obj) (d : Obj)
    (hne : idOf l ≠ "") (hget : mapGet dm (idOf l) = some d) :
    mergeLoop dm (l :: ls) =
      (mergeRec l d :: (mergeLoop (mapDelete dm (idOf l)) ls).1,
       (mergeLoop (mapDelete dm (idOf l)) ls).2) := by
  simp [mergeLoop, hne, hget]

theorem mergeLoop_empty_id_step (dm : DMap) (l : Obj) (ls : List Obj)
    (h : idOf l = "") :
    mergeLoop dm (l :: ls) =
      (setKey l "detailScraped" (.bool false) :: (mergeLoop dm ls).1,
       (mergeLoop dm ls).2) := by
  simp [mergeLoop, h]

theorem mergeLoop_final_sub (ls : List Obj) (dm : DMap) :
    ∀ p ∈ (mergeLoop dm ls).2, p ∈ dm := by
  induction ls generalizing dm with
  | nil => exact fun p hp => hp
  | cons l ls ih =>
    intro p hp
    cases hm : (if idOf l ≠ "" then mapGet dm (idOf l) else none) with
    | some d =>
      simp only [mergeLoop, hm] at hp
      exact (mem_mapDelete.mp (ih (mapDelete dm (idOf l)) p hp)).1
    | none =>
      simp only [mergeLoop, hm] at hp
      exact ih dm p hp

/-- Claim C10 (implicit): last-detail-wins on duplicate identity.  The
detail index maps every non-empty identity to the last DetailRecord
with that identity in dataset order (`Map.set` overwrites), never maps
the empty identity; the merge step consumes exactly the mapped record;
and the leftover standalone records are entries of the index — so
earlier duplicates are neither merged nor appended. -/
theorem C10_last_detail_wins :
    (∀ (ds : List Obj) (k : String), k ≠ "" →
      mapGet (buildDetailMap ds) k = (ds.filter (fun d => idOf d = k)).getLast?) ∧
    (∀ ds : List Obj, mapGet (buildDetailMap ds) "" = none) ∧
    (∀ (dm : DMap) (l : Obj) (ls : List Obj) (d : Obj), idOf l ≠ "" →
      mapGet dm (idOf l) = some d →
      mergeLoop dm (l :: ls) =
        (mergeRec l d :: (mergeLoop (mapDelete dm (idOf l)) ls).1,
         (mergeLoop (mapDelete dm (idOf l)) ls).2)) ∧
    (∀ (ls : List Obj) (dm : DMap), ∀ p ∈ (mergeLoop dm ls).2, p ∈ dm) :=
  ⟨buildDetailMap_lookup, buildDetailMap_empty_key, mergeLoop_merge_step,
   mergeLoop_final_sub⟩

theorem C10_last_detail_wins_witness :
    mapGet
        (buildDetailMap
          [[("url", JVal.str "https://x/details.asp?id=42"), ("listingId", JVal.str "42"),
            ("title", JVal.str "first scrape")],
           [("url", JVal.str "https://x/details.asp?id=42"), ("listingId", JVal.str "42"),
            ("title", JVal.str "second scrape")]]) "42" =
      ([[("url", JVal.str "https://x/details.asp?id=42"), ("listingId", JVal.str "42"),
         ("title", JVal.str "first scrape")],
        [("url", JVal.str "https://x/details.asp?id=42"), ("listingId", JVal.str "42"),
         ("title", JVal.str "second scrape")]].filter (fun d => idOf d = "42")).getLast? ∧
    mapGet
        (buildDetailMap
          [[("url", JVal.str "https://x/details.asp?id=42"), ("listingId", JVal.str "42"),
            ("title", JVal.str "first scrape")],
           [("url", JVal.str "https://x/details.asp?id=42"), ("listingId", JVal.str "42"),
            ("title", JVal.str "second scrape")]]) "42" =
      some
        [("url", JVal.str "https://x/details.asp?id=42"), ("listingId", JVal.str "42"),
         ("title", JVal.str "second scrape")] :=
  ⟨C10_last_detail_wins.1 _ "42" (by decide), by decide⟩

theorem buildDetailMap_coh (ds : List Obj) :
    ∀ p ∈ buildDetailMap ds, idOf p.2 = p.1 ∧ p.1 ≠ "" := by
  intro p hp
  obtain ⟨d, _, he, hne⟩ := buildDetailMap_mem hp
  subst he
  exact ⟨rfl, hne⟩

theorem mergeLoop_covers (ls : List Obj) (dm : DMap)
    (coh : ∀ p ∈ dm, idOf p.2 = p.1) (k : String) (hk : k ∈ mapKeys dm) :
    (∃ r ∈ (mergeLoop dm ls).1, idOf r = k) ∨ k ∈ mapKeys (mergeLoop dm ls).2 := by
  induction ls generalizing dm with
  | nil => exact .inr hk
  | cons l ls ih =>
    cases hm : (if idOf l ≠ "" then mapGet dm (idOf l) else none) with
    | some d =>
      have hne : idOf l ≠ "" := by
        intro h0
        rw [if_neg (by simp [h0])] at hm
        exact Option.noConfusion hm
      rw [if_pos hne] at hm
      have hsc : (if idOf l ≠ "" then mapGet dm (idOf l) else none) = some d := by
        rw [if_pos hne]
        exact hm
      by_cases hkl : k = idOf l
      · left
        refine ⟨mergeRec l d, ?_, ?_⟩
        · simp only [mergeLoop, hsc]
          exact List.mem_cons_self _ _
        · have hcd := coh _ (mapGet_mem hm)
          rw [idOf_mergeRec l d (by rw [hcd]; exact hne), hcd, hkl]
      · have hk' : k ∈ mapKeys (mapDelete dm (idOf l)) := by
          rw [mapKeys_delete, List.mem_filter]
          exact ⟨hk, by simp [hkl]⟩
        have coh' : ∀ p ∈ mapDelete dm (idOf l), idOf p.2 = p.1 :=
          fun p hp => coh p (mem_mapDelete.mp hp).1
        rcases ih (mapDelete dm (idOf l)) coh' hk' with ⟨r, hr, hid⟩ | hinf
        · left
          refine ⟨r, ?_, hid⟩
          simp only [mergeLoop, hsc]
          exact List.mem_cons_of_mem _ hr
        · right
          simpa only [mergeLoop, hsc] using hinf
    | none =>
      rcases ih dm coh hk with ⟨r, hr, hid⟩ | hinf
      · left
        refine ⟨r, ?_, hid⟩
        simp only [mergeLoop, hm]
        exact List.mem_cons_of_mem _ hr
      · right
        simpa only [mergeLoop, hm] using hinf

/-- Claim C6 (amended): no merge orphan with a derivable identity is
dropped — every identity present in the detail index (that is, every
non-empty listing identity of an accumulated DetailRecord) appears on
some record of the combined output, either merged into its summary or
as a standalone leftover.  A DetailRecord whose extracted identity is
the empty string is excluded from the index by the `if (id)` guard and
is silently dropped (see the counterexample). -/
theorem C6_no_orphan_with_id_dropped (items : List Obj) (k : String)
    (hk : k ∈ mapKeys (buildDetailMap (items.filter isDetailItem))) :
    ∃ r ∈ mergeAndExport items, idOf r = k := by
  have coh : ∀ p ∈ buildDetailMap (items.filter isDetailItem), idOf p.2 = p.1 :=
    fun p hp => (buildDetailMap_coh _ p hp).1
  rcases mergeLoop_covers (items.filter isSearchListing)
      (buildDetailMap (items.filter isDetailItem)) coh k hk with ⟨r, hr, hid⟩ | hinf
  · exact ⟨r, by simp only [mergeAndExport, List.mem_append]; exact .inl hr, hid⟩
  · rw [mapKeys] at hinf
    obtain ⟨p, hp, hpk⟩ := List.mem_map.mp hinf
    refine ⟨p.2, ?_, ?_⟩
    · simp only [mergeAndExport, List.mem_append]
      exact .inr (List.mem_map_of_mem _ hp)
    · have hsub := mergeLoop_final_sub (items.filter isSearchListing)
        (buildDetailMap (items.filter isDetailItem)) p hp
      rw [coh p hsub, hpk]

theorem C6_counterexample :
    isDetailItem [("url", JVal.str "https://www.avto.net/Ads/details.asp"),
      ("listingId", JVal.str "")] = true ∧
    mergeAndExport [[("url", JVal.str "https://www.avto.net/Ads/details.asp"),
      ("listingId", JVal.str "")]] = [] := by
  decide

theorem C6_no_orphan_with_id_dropped_witness :
    ∃ r ∈ mergeAndExport [[("url", JVal.str "https://x/details.asp?id=44"),
        ("listingId", JVal.str "44")]], idOf r = "44" :=
  C6_no_orphan_with_id_dropped _ "44" (by decide)

theorem mergeLoop_detail_idents (ls : List Obj) (dm : DMap)
    (hnodup : (mapKeys dm).Nodup)
    (hco : ∀ p ∈ dm, idOf p.2 = p.1 ∧ p.1 ≠ "" ∧ jlookup p.2 "detailScraped" = none)
    (hls : ∀ l ∈ ls, jlookup l "detailScraped" = none) :
    ((mergeLoop dm ls).1.filterMap detailIdent ++ mapKeys (mergeLoop dm ls).2).Nodup ∧
    (∀ x ∈ (mergeLoop dm ls).1.filterMap detailIdent ++ mapKeys (mergeLoop dm ls).2,
      x ∈ mapKeys dm) := by
  induction ls generalizing dm with
  | nil =>
    constructor
    · simpa [mergeLoop] using hnodup
    · simp [mergeLoop]
  | cons l ls ih =>
    cases hm : (if idOf l ≠ "" then mapGet dm (idOf l) else none) with
    | some d =>
      have hne : idOf l ≠ "" := by
        intro h0
        rw [if_neg (by simp [h0])] at hm
        exact Option.noConfusion hm
      have hm' : mapGet dm (idOf l) = some d := by
        rw [if_pos hne] at hm
        exact hm
      have hmem := mapGet_mem hm'
      obtain ⟨hcd, hcne, hcds⟩ := hco _ hmem
      have hdm' : (mapKeys (mapDelete dm (idOf l))).Nodup := by
        rw [mapKeys_delete]
        exact hnodup.filter _
      have hco' : ∀ p ∈ mapDelete dm (idOf l),
          idOf p.2 = p.1 ∧ p.1 ≠ "" ∧ jlookup p.2 "detailScraped" = none :=
        fun p hp => hco p (mem_mapDelete.mp hp).1
      have hls' : ∀ l' ∈ ls, jlookup l' "detailScraped" = none :=
        fun l' hl' => hls l' (List.mem_cons_of_mem l hl')
      obtain ⟨ihn, ihs⟩ := ih (mapDelete dm (idOf l)) hdm' hco' hls'
      have hdi : detailIdent (mergeRec l d) = some (idOf l) := by
        unfold detailIdent
        rw [detailScraped_mergeRec l d (hls l (List.mem_cons_self l ls)) hcds,
          idOf_mergeRec l d (by rw [hcd]; exact hne), hcd]
        rfl
      have hkeysub : ∀ x, x ∈ mapKeys (mapDelete dm (idOf l)) →
          x ∈ mapKeys dm ∧ x ≠ idOf l := by
        intro x hx
        rw [mapKeys_delete, List.mem_filter] at hx
        exact ⟨hx.1, by simpa using hx.2⟩
      have e1 : (mergeLoop dm (l :: ls)).1 =
          mergeRec l d :: (mergeLoop (mapDelete dm (idOf l)) ls).1 := by
        simp only [mergeLoop, hm]
      have e2 : (mergeLoop dm (l :: ls)).2 =
          (mergeLoop (mapDelete dm (idOf l)) ls).2 := by
        simp only [mergeLoop, hm]
      rw [e1, e2, List.filterMap_cons_some hdi]
      constructor
      · rw [List.cons_append, List.nodup_cons]
        refine ⟨fun hx => ?_, ihn⟩
        exact (hkeysub _ (ihs _ hx)).2 rfl
      · intro x hx
        rw [List.cons_append, List.mem_cons] at hx
        rcases hx with rfl | hx
        · exact List.mem_map_of_mem _ hmem
        · exact (hkeysub _ (ihs _ hx)).1
    | none =>
      obtain ⟨ihn, ihs⟩ := ih dm hnodup hco
        (fun l' hl' => hls l' (List.mem_cons_of_mem l hl'))
      have hdi : detailIdent (setKey l "detailScraped" (.bool false)) = none := by
        unfold detailIdent
        rw [jlookup_setKey, if_pos rfl]
        rfl
      have e1 : (mergeLoop dm (l :: ls)).1 =
          setKey l "detailScraped" (.bool false) :: (mergeLoop dm ls).1 := by
        simp only [mergeLoop, hm]
      have e2 : (mergeLoop dm (l :: ls)).2 = (mergeLoop dm ls).2 := by
        simp only [mergeLoop, hm]
      rw [e1, e2, List.filterMap_cons_none hdi]
      exact ⟨ihn, ihs⟩

theorem filterMap_detailIdent_values (fm : DMap)
    (h : ∀ p ∈ fm, detailIdent p.2 = some p.1) :
    (fm.map (·.2)).filterMap detailIdent = mapKeys fm := by
  induction fm with
  | nil => rfl
  | cons p r ih =>
    rw [List.map_cons, List.filterMap_cons_some (h p (List.mem_cons_self p r)),
      mapKeys_cons, ih (fun q hq => h q (List.mem_cons_of_mem p hq))]

/-- Claim C5 (amended): output deduplication by identity holds for the
detail-bearing records: among the records of the combined output that
carry detail data (merged records and standalone leftover details —
exactly those without the `detailScraped` flag, provided no input item
carries that flag), no two share a listing identity, and every such
identity is non-empty.  It fails for flagged summaries: two
SearchSummaries with the same non-empty identity each produce their own
output record (see the counterexample). -/
theorem C5_output_dedup_by_identity (items : List Obj)
    (h : ∀ i ∈ items, jlookup i "detailScraped" = none) :
    ((mergeAndExport items).filterMap detailIdent).Nodup ∧
    ∀ x ∈ (mergeAndExport items).filterMap detailIdent, x ≠ "" := by
  have hnodup := buildDetailMap_keys_nodup (items.filter isDetailItem)
  have hco : ∀ p ∈ buildDetailMap (items.filter isDetailItem),
      idOf p.2 = p.1 ∧ p.1 ≠ "" ∧ jlookup p.2 "detailScraped" = none := by
    intro p hp
    obtain ⟨hc1, hc2⟩ := buildDetailMap_coh _ p hp
    obtain ⟨d, hd, he, _⟩ := buildDetailMap_mem hp
    refine ⟨hc1, hc2, ?_⟩
    have : p.2 = d := by rw [he]
    rw [this]
    exact h d (List.mem_filter.mp hd).1
  have hls : ∀ l ∈ items.filter isSearchListing, jlookup l "detailScraped" = none :=
    fun l hl => h l (List.mem_filter.mp hl).1
  obtain ⟨hn, hs⟩ := mergeLoop_detail_idents (items.filter isSearchListing)
    (buildDetailMap (items.filter isDetailItem)) hnodup hco hls
  have hout : (mergeAndExport items).filterMap detailIdent =
      (mergeLoop (buildDetailMap (items.filter isDetailItem))
          (items.filter isSearchListing)).1.filterMap detailIdent ++
        mapKeys (mergeLoop (buildDetailMap (items.filter isDetailItem))
          (items.filter isSearchListing)).2 := by
    simp only [mergeAndExport, List.filterMap_append]
    congr 1
    apply filterMap_detailIdent_values
    intro p hp
    have hpdm := mergeLoop_final_sub (items.filter isSearchListing)
      (buildDetailMap (items.filter isDetailItem)) p hp
    obtain ⟨hc1, _, hc3⟩ := hco p hpdm
    unfold detailIdent
    rw [hc3, hc1]
    rfl
  rw [hout]
  refine ⟨hn, fun x hx => ?_⟩
  have hxdm := hs x hx
  rw [mapKeys] at hxdm
  obtain ⟨p, hp, hpk⟩ := List.mem_map.mp hxdm
  have := (hco p hp).2.1
  rw [← hpk]
  exact this

theorem C5_counterexample :
    (mergeAndExport
        [[("label", JVal.str "search-listing"), ("listingId", JVal.str "42")],
         [("label", JVal.str "search-listing"), ("listingId", JVal.str "42")]]).countP
      (fun r => idOf r = "42") = 2 := by
  decide

theorem C5_output_dedup_by_identity_witness :
    ((mergeAndExport
        [[("label", JVal.str "search-listing"), ("listingId", JVal.str "42")],
         [("url", JVal.str "https://x/details.asp?id=42"), ("listingId", JVal.str "42")],
         [("url", JVal.str "https://x/details.asp?id=44"),
          ("listingId", JVal.str "44")]]).filterMap detailIdent).Nodup ∧
    ∀ x ∈ (mergeAndExport
        [[("label", JVal.str "search-listing"), ("listingId", JVal.str "42")],
         [("url", JVal.str "https://x/details.asp?id=42"), ("listingId", JVal.str "42")],
         [("url", JVal.str "https://x/details.asp?id=44"),
          ("listingId", JVal.str "44")]]).filterMap detailIdent, x ≠ "" :=
  C5_output_dedup_by_identity _ (by decide)

theorem toLower_eq_i {c : Char} : c.toLower = 'i' ↔ c = 'i' ∨ c = 'I' := by
  constructor
  · intro h
    simp only [Char.toLower] at h
    by_cases hc : c.toNat ≥ 65 ∧ c.toNat ≤ 90
    · rw [if_pos hc] at h
      have hv : (c.toNat + 32).isValidChar := by
        left
        omega
      rw [Char.ofNat, dif_pos hv] at h
      have h1 := congrArg Char.toNat h
      rw [ofNatAux_toNat] at h1
      have h2 : ('i' : Char).toNat = 105 := rfl
      have h3 : c.toNat = 73 := by omega
      have h4 : c = Char.ofNat 73 := by rw [← h3, Char.ofNat_toNat]
      exact .inr (h4.trans (by decide))
    · rw [if_neg hc] at h
      exact .inl h
  · rintro (rfl | rfl) <;> decide

theorem toLower_eq_d {c : Char} : c.toLower = 'd' ↔ c = 'd' ∨ c = 'D' := by
  constructor
  · intro h
    simp only [Char.toLower] at h
    by_cases hc : c.toNat ≥ 65 ∧ c.toNat ≤ 90
    · rw [if_pos hc] at h
      have hv : (c.toNat + 32).isValidChar := by
        left
        omega
      rw [Char.ofNat, dif_pos hv] at h
      have h1 := congrArg Char.toNat h
      rw [ofNatAux_toNat] at h1
      have h2 : ('d' : Char).toNat = 100 := rfl
      have h3 : c.toNat = 68 := by omega
      have h4 : c = Char.ofNat 68 := by rw [← h3, Char.ofNat_toNat]
      exact .inr (h4.trans (by decide))
    · rw [if_neg hc] at h
      exact .inl h
  · rintro (rfl | rfl) <;> decide

theorem scan_passthrough (pre rest : List Char)
    (h : ∀ c ∈ pre, c ≠ '?' ∧ c ≠ '&') :
    scanListingId (pre ++ rest) = scanListingId rest := by
  induction pre with
  | nil => rfl
  | cons c pre ih =>
    have hc := h c (List.mem_cons_self c pre)
    simp only [List.cons_append, scanListingId]
    rw [if_neg (by simp [hc.1, hc.2])]
    exact ih (fun x hx => h x (List.mem_cons_of_mem c hx))

theorem takeWhile_append_sep (p : Char → Bool) (x y : List Char)
    (hy : y = [] ∨ ∃ c t, y = c :: t ∧ p c = false) :
    (x ++ y).takeWhile p = x.takeWhile p := by
  induction x with
  | nil =>
    rcases hy with rfl | ⟨c, t, rfl, hc⟩
    · rfl
    · simp [List.takeWhile_cons, hc]
  | cons a x ih =>
    simp only [List.cons_append, List.takeWhile_cons]
    by_cases ha : p a
    · simp [ha, ih]
    · simp [ha]

theorem lowerStr_data_of_id {k : String} (hk : lowerStr k = "id") :
    ∃ c1 c2, k.data = [c1, c2] ∧ (c1 = 'i' ∨ c1 = 'I') ∧ (c2 = 'd' ∨ c2 = 'D') := by
  have hd : k.data.map Char.toLower = ['i', 'd'] := by
    have := congrArg String.data hk
    simpa [lowerStr] using this
  rcases hmap : k.data with _ | ⟨c1, _ | ⟨c2, rest⟩⟩
  · rw [hmap] at hd
    simp at hd
  · rw [hmap] at hd
    simp at hd
  · rw [hmap] at hd
    simp only [List.map_cons, List.cons.injEq] at hd
    obtain ⟨h1, h2, h3⟩ := hd
    have hrest : rest = [] := by simpa using h3
    exact ⟨c1, c2, by rw [hrest], toLower_eq_i.mp h1, toLower_eq_d.mp h2⟩

theorem tryIdAt_param_pos (k v : String) (tail : List Char)
    (hk : lowerStr k = "id")
    (hv : ∃ c cs, v.data = c :: cs ∧ c.isDigit)
    (htail : tail = [] ∨ ∃ t, tail = '&' :: t) :
    tryIdAt (k.data ++ '=' :: v.data ++ tail) = some (v.data.takeWhile Char.isDigit) := by
  obtain ⟨c1, c2, hk2, hc1, hc2⟩ := lowerStr_data_of_id hk
  rw [hk2]
  simp only [List.cons_append, List.nil_append, tryIdAt]
  rw [if_pos ⟨hc1, hc2⟩]
  have htw : (v.data ++ tail).takeWhile Char.isDigit = v.data.takeWhile Char.isDigit := by
    apply takeWhile_append_sep
    rcases htail with rfl | ⟨t, rfl⟩
    · exact .inl rfl
    · exact .inr ⟨'&', t, rfl, by decide⟩
  rw [htw]
  obtain ⟨c, cs, hvd, hcd⟩ := hv
  rw [hvd, List.takeWhile_cons, if_pos hcd]
  simp

theorem tryIdAt_not_id_key (k v : String) (tail : List Char)
    (hkne : k ≠ "") (hkwf : ∀ c ∈ k.data, c ≠ '=')
    (hvwf : ∀ c ∈ v.data, c ≠ '=')
    (hni : isIdParamB (k, v) = false)
    (htail : tail = [] ∨ ∃ t, tail = '&' :: t) :
    tryIdAt (k.data ++ '=' :: v.data ++ tail) = none := by
  have hvt : v.data ++ tail = [] ∨
      ∃ c cs, v.data ++ tail = c :: cs ∧ c ≠ '=' := by
    cases hvd : v.data with
    | cons c cs =>
      exact .inr ⟨c, cs ++ tail, by simp,
        hvwf c (by rw [hvd]; exact List.mem_cons_self c cs)⟩
    | nil =>
      rcases htail with rfl | ⟨t, rfl⟩
      · exact .inl rfl
      · exact .inr ⟨'&', t, by simp [hvd], by decide⟩
  rcases hkd : k.data with _ | ⟨c1, _ | ⟨c2, _ | ⟨c3, krest⟩⟩⟩
  · exact absurd (String.ext (hkd.trans rfl)) hkne
  · simp only [List.cons_append, List.nil_append]
    rcases hvt with hvt0 | ⟨c, cs, hvt1, hc⟩
    · rw [hvt0]
      rfl
    · rw [hvt1]
      rw [ tryIdAt.eq_def]
      split
      · rename_i i d rest heq
        exfalso
        rw [List.cons.injEq, List.cons.injEq, List.cons.injEq] at heq
        exact hc heq.2.2.1
      · rfl
  · simp only [List.cons_append, List.nil_append, tryIdAt]
    by_cases hcase : (c1 = 'i' ∨ c1 = 'I') ∧ (c2 = 'd' ∨ c2 = 'D')
    · rw [if_pos hcase]
      have hid : lowerStr k = "id" := by
        apply String.ext
        show k.data.map Char.toLower = "id".data
        rw [hkd]
        rcases hcase.1 with rfl | rfl <;> rcases hcase.2 with rfl | rfl <;> decide
      have hnd : (match v.data with
          | c :: _ => c.isDigit
          | [] => false) = false := by
        have h0 := hni
        unfold isIdParamB at h0
        rw [hid] at h0
        simpa using h0
      have htw : (v.data ++ tail).takeWhile Char.isDigit = [] := by
        cases hvd : v.data with
        | cons c cs =>
          rw [hvd] at hnd
          have hcd : c.isDigit = false := by simpa using hnd
          simp only [List.cons_append, List.takeWhile_cons]
          rw [if_neg (by simp [hcd])]
        | nil =>
          rcases htail with rfl | ⟨t, rfl⟩
          · rfl
          · simp [hvd, List.takeWhile_cons]
      rw [htw]
      simp
    · rw [if_neg hcase]
  · have hc3 : c3 ≠ '=' := hkwf c3 (by rw [hkd]; simp)
    simp only [List.cons_append, List.nil_append]
    rw [ tryIdAt.eq_def]
    split
    · rename_i i d rest heq
      exfalso
      rw [List.cons.injEq, List.cons.injEq, List.cons.injEq] at heq
      exact hc3 heq.2.2.1
    · rfl

theorem paramsJoin_cons_data (p : String × String) (ps : List (String × String)) :
    (paramsJoin (p :: ps)).data =
      p.1.data ++ '=' :: p.2.data ++
        (match ps with
         | [] => ([] : List Char)
         | _ :: _ => '&' :: (paramsJoin ps).data) := by
  cases ps with
  | nil => simp [paramsJoin, String.data_append]
  | cons q qs =>
    show (p.1 ++ "=" ++ p.2 ++ "&" ++ paramsJoin (q :: qs)).data = _
    simp [String.data_append]

theorem scan_query (ps : List (String × String)) (sep : Char)
    (hsep : sep = '?' ∨ sep = '&') (hwf : ∀ p ∈ ps, ParamWf p) :
    scanListingId (sep :: (paramsJoin ps).data) =
      match ps.find? isIdParamB with
      | some pv => some (pv.2.data.takeWhile Char.isDigit)
      | none => none := by
  induction ps generalizing sep with
  | nil =>
    show scanListingId [sep] = none
    simp only [scanListingId]
    rw [if_pos hsep]
    rfl
  | cons p ps ih =>
    obtain ⟨hkne, hkwf, hvwf⟩ := hwf p (List.mem_cons_self p ps)
    have hwf' : ∀ q ∈ ps, ParamWf q := fun q hq => hwf q (List.mem_cons_of_mem p hq)
    obtain ⟨tl, htl, hshape⟩ : ∃ tl : List Char,
        (paramsJoin (p :: ps)).data = p.1.data ++ '=' :: p.2.data ++ tl ∧
        ((ps = [] ∧ tl = []) ∨
          ∃ q qs, ps = q :: qs ∧ tl = '&' :: (paramsJoin ps).data) := by
      cases ps with
      | nil =>
        refine ⟨[], ?_, .inl ⟨rfl, rfl⟩⟩
        show (p.1 ++ "=" ++ p.2).data = _
        simp [String.data_append]
      | cons q qs =>
        refine ⟨'&' :: (paramsJoin (q :: qs)).data, ?_, .inr ⟨q, qs, rfl, rfl⟩⟩
        show (p.1 ++ "=" ++ p.2 ++ "&" ++ paramsJoin (q :: qs)).data = _
        simp [String.data_append]
    have htail : tl = [] ∨ ∃ t, tl = '&' :: t := by
      rcases hshape with ⟨_, rfl⟩ | ⟨q, qs, _, rfl⟩
      · exact .inl rfl
      · exact .inr ⟨_, rfl⟩
    rw [htl]
    simp only [scanListingId]
    rw [if_pos hsep]
    by_cases hip : isIdParamB p = true
    · have hk : lowerStr p.1 = "id" := by
        unfold isIdParamB at hip
        exact decide_eq_true_eq.mp (Bool.and_eq_true_iff.mp hip).1
      have hv : ∃ c cs, p.2.data = c :: cs ∧ c.isDigit := by
        unfold isIdParamB at hip
        have h2 := (Bool.and_eq_true_iff.mp hip).2
        cases hvd : p.2.data with
        | nil =>
          rw [hvd] at h2
          simp at h2
        | cons c cs =>
          rw [hvd] at h2
          exact ⟨c, cs, rfl, h2⟩
      rw [tryIdAt_param_pos p.1 p.2 tl hk hv htail,
        List.find?_cons_of_pos _ hip]
    · have hni : isIdParamB (p.1, p.2) = false := by
        simpa using (Bool.not_eq_true _).mp hip
      rw [tryIdAt_not_id_key p.1 p.2 tl hkne (fun c hc => (hkwf c hc).2.2)
        (fun c hc => (hvwf c hc).2.2) hni htail]
      have hpre : ∀ c ∈ p.1.data ++ '=' :: p.2.data, c ≠ '?' ∧ c ≠ '&' := by
        intro c hc
        rw [List.mem_append, List.mem_cons] at hc
        rcases hc with hc | rfl | hc
        · exact ⟨(hkwf c hc).1, (hkwf c hc).2.1⟩
        · exact ⟨by decide, by decide⟩
        · exact ⟨(hvwf c hc).1, (hvwf c hc).2.1⟩
      rw [show p.1.data ++ '=' :: p.2.data ++ tl =
          (p.1.data ++ '=' :: p.2.data) ++ tl by simp,
        scan_passthrough _ _ hpre, List.find?_cons_of_neg _ (by simpa using hip)]
      rcases hshape with ⟨hps, rfl⟩ | ⟨q, qs, hps, rfl⟩
      · rw [hps]
        rfl
      · exact ih '&' (.inr rfl) hwf'

/-- Claim C3 (amended): listing-identity extraction and empty-identity
join exclusion, restricted — as the counterexample forces — to the
FIRST id parameter.  For every detail URL (a base with no stray `?` or
`&` followed by query parameters) whose first id query parameter (key
`id` in any casing, digit value, at any position among the parameters)
has value `12345`, `extractListingId` returns exactly `"12345"`; when no
id parameter with a digit value exists it returns the empty string.
When a second id parameter carries `12345` behind another id parameter,
the first one wins (see the counterexample).  In `mergeAndExport`, a
record whose listing identity is empty is never matched by identity: an
empty-id summary takes the unmatched branch regardless of the index,
and the detail index never contains the empty identity. -/
theorem C3_listing_identity (base : String) (params : List (String × String))
    (hbase : ∀ c ∈ base.data, c ≠ '?' ∧ c ≠ '&')
    (hwf : ∀ p ∈ params, ParamWf p) :
    (∀ k, params.find? isIdParamB = some (k, "12345") →
      extractListingId (mkUrl base params) = "12345") ∧
    (params.find? isIdParamB = none → extractListingId (mkUrl base params) = "") ∧
    (∀ (dm : DMap) (l : Obj) (ls : List Obj), idOf l = "" →
      mergeLoop dm (l :: ls) =
        (setKey l "detailScraped" (.bool false) :: (mergeLoop dm ls).1,
         (mergeLoop dm ls).2)) ∧
    (∀ ds : List Obj, mapGet (buildDetailMap ds) "" = none) := by
  have hdata : (mkUrl base params).data =
      base.data ++ '?' :: (paramsJoin params).data := by
    show (base ++ "?" ++ paramsJoin params).data = _
    simp [String.data_append]
  have hscan : scanListingId (mkUrl base params).data =
      match params.find? isIdParamB with
      | some pv => some (pv.2.data.takeWhile Char.isDigit)
      | none => none := by
    rw [hdata, show base.data ++ '?' :: (paramsJoin params).data =
        base.data ++ ('?' :: (paramsJoin params).data) from rfl,
      scan_passthrough base.data _ hbase]
    exact scan_query params '?' (.inl rfl) hwf
  refine ⟨?_, ?_, mergeLoop_empty_id_step, buildDetailMap_empty_key⟩
  · intro k hfind
    have h : extractListingId (mkUrl base params) =
        ⟨("12345" : String).data.takeWhile Char.isDigit⟩ := by
      unfold extractListingId
      rw [hscan, hfind]
    rw [h]
    decide
  · intro hfind
    unfold extractListingId
    rw [hscan, hfind]

theorem C3_counterexample :
    ("id", "12345") ∈ [("id", "111"), ("id", "12345")] ∧
    extractListingId (mkUrl "https://www.avto.net/Ads/details.asp"
      [("id", "111"), ("id", "12345")]) = "111" ∧
    extractListingId (mkUrl "https://www.avto.net/Ads/details.asp"
      [("id", "111"), ("id", "12345")]) ≠ "12345" := by
  decide

theorem C3_listing_identity_witness :
    extractListingId (mkUrl "https://www.avto.net/Ads/details.asp"
      [("x", "1"), ("ID", "12345"), ("y", "2")]) = "12345" := by
  have h := C3_listing_identity "https://www.avto.net/Ads/details.asp"
    [("x", "1"), ("ID", "12345"), ("y", "2")] (by decide) (by decide)
  exact h.1 "ID" (by decide)

theorem head_ne_cons_aux {c c' : Char} (h : c ≠ c') (q : List Char) :
    ∀ t, c :: q ≠ c' :: t := by
  intro t ht
  injection ht with h1 _
  exact h h1

theorem replSmall_eq_cons (c : Char) (cs : List Char)
    (h : ∀ rest, c :: cs ≠ '/' :: 's' :: 'm' :: 'a' :: 'l' :: 'l' :: '/' :: rest) :
    replSmall (c :: cs) = c :: replSmall cs := by
  rw [ replSmall.eq_def]
  split
  · rename_i rest heq
    exact absurd heq (h rest)
  · rename_i x c' cs' hcon heq
    injection heq with h1 h2
    rw [h1, h2]
  · rename_i x heq
    simp at heq

theorem replThumb_eq_cons (c : Char) (cs : List Char)
    (h : ∀ rest, c :: cs ≠ '/' :: 't' :: 'h' :: 'u' :: 'm' :: 'b' :: '/' :: rest) :
    replThumb (c :: cs) = c :: replThumb cs := by
  rw [ replThumb.eq_def]
  split
  · rename_i rest heq
    exact absurd heq (h rest)
  · rename_i x c' cs' hcon heq
    injection heq with h1 h2
    rw [h1, h2]
  · rename_i x heq
    simp at heq

theorem stepSmall (d : Char) (q l : List Char)
    (hq : d = '/' → q = [] ∨ ∀ t, q ≠ 'b' :: t)
    (hp : (d :: q) <+: replSmall l) :
    ∃ cs, l = d :: cs ∧ (q = [] ∨ q <+: replSmall cs) := by
  cases l with
  | nil => simp [replSmall] at hp
  | cons c cs =>
    by_cases hs : ∃ rest, c :: cs = '/' :: 's' :: 'm' :: 'a' :: 'l' :: 'l' :: '/' :: rest
    · obtain ⟨rest, heq⟩ := hs
      rw [heq] at hp ⊢
      rw [show replSmall ('/' :: 's' :: 'm' :: 'a' :: 'l' :: 'l' :: '/' :: rest) =
        '/' :: 'b' :: 'i' :: 'g' :: '/' :: replSmall rest from by simp [replSmall]] at hp
      rw [List.cons_prefix_cons] at hp
      obtain ⟨rfl, hq'⟩ := hp
      rcases hq rfl with rfl | hnb
      · exact ⟨_, rfl, .inl rfl⟩
      · cases q with
        | nil => exact ⟨_, rfl, .inl rfl⟩
        | cons c0 q' =>
          rw [List.cons_prefix_cons] at hq'
          exact absurd (by rw [hq'.1]) (hnb q')
    · push_neg at hs
      rw [replSmall_eq_cons c cs hs, List.cons_prefix_cons] at hp
      exact ⟨cs, by rw [hp.1], .inr hp.2⟩

theorem stepThumb (d : Char) (q l : List Char)
    (hq : d = '/' → q = [] ∨ ∀ t, q ≠ 'b' :: t)
    (hp : (d :: q) <+: replThumb l) :
    ∃ cs, l = d :: cs ∧ (q = [] ∨ q <+: replThumb cs) := by
  cases l with
  | nil => simp [replThumb] at hp
  | cons c cs =>
    by_cases hs : ∃ rest, c :: cs = '/' :: 't' :: 'h' :: 'u' :: 'm' :: 'b' :: '/' :: rest
    · obtain ⟨rest, heq⟩ := hs
      rw [heq] at hp ⊢
      rw [show replThumb ('/' :: 't' :: 'h' :: 'u' :: 'm' :: 'b' :: '/' :: rest) =
        '/' :: 'b' :: 'i' :: 'g' :: '/' :: replThumb rest from by simp [replThumb]] at hp
      rw [List.cons_prefix_cons] at hp
      obtain ⟨rfl, hq'⟩ := hp
      rcases hq rfl with rfl | hnb
      · exact ⟨_, rfl, .inl rfl⟩
      · cases q with
        | nil => exact ⟨_, rfl, .inl rfl⟩
        | cons c0 q' =>
          rw [List.cons_prefix_cons] at hq'
          exact absurd (by rw [hq'.1]) (hnb q')
    · push_neg at hs
      rw [replThumb_eq_cons c cs hs, List.cons_prefix_cons] at hp
      exact ⟨cs, by rw [hp.1], .inr hp.2⟩

theorem chain_small_over_small (l : List Char)
    (hp : ['s', 'm', 'a', 'l', 'l', '/'] <+: replSmall l) :
    ['s', 'm', 'a', 'l', 'l', '/'] <+: l := by
  obtain ⟨c1, rfl, h1⟩ := stepSmall 's' _ l (fun h => absurd h (by decide)) hp
  rcases h1 with h1 | h1
  · exact absurd h1 (by decide)
  obtain ⟨c2, rfl, h2⟩ := stepSmall 'm' _ c1 (fun h => absurd h (by decide)) h1
  rcases h2 with h2 | h2
  · exact absurd h2 (by decide)
  obtain ⟨c3, rfl, h3⟩ := stepSmall 'a' _ c2 (fun h => absurd h (by decide)) h2
  rcases h3 with h3 | h3
  · exact absurd h3 (by decide)
  obtain ⟨c4, rfl, h4⟩ := stepSmall 'l' _ c3 (fun h => absurd h (by decide)) h3
  rcases h4 with h4 | h4
  · exact absurd h4 (by decide)
  obtain ⟨c5, rfl, h5⟩ := stepSmall 'l' _ c4 (fun h => absurd h (by decide)) h4
  rcases h5 with h5 | h5
  · exact absurd h5 (by decide)
  obtain ⟨c6, rfl, _⟩ := stepSmall '/' [] c5 (fun _ => .inl rfl) h5
  simp [List.cons_prefix_cons]

theorem chain_small_over_thumb (l : List Char)
    (hp : ['s', 'm', 'a', 'l', 'l', '/'] <+: replThumb l) :
    ['s', 'm', 'a', 'l', 'l', '/'] <+: l := by
  obtain ⟨c1, rfl, h1⟩ := stepThumb 's' _ l (fun h => absurd h (by decide)) hp
  rcases h1 with h1 | h1
  · exact absurd h1 (by decide)
  obtain ⟨c2, rfl, h2⟩ := stepThumb 'm' _ c1 (fun h => absurd h (by decide)) h1
  rcases h2 with h2 | h2
  · exact absurd h2 (by decide)
  obtain ⟨c3, rfl, h3⟩ := stepThumb 'a' _ c2 (fun h => absurd h (by decide)) h2
  rcases h3 with h3 | h3
  · exact absurd h3 (by decide)
  obtain ⟨c4, rfl, h4⟩ := stepThumb 'l' _ c3 (fun h => absurd h (by decide)) h3
  rcases h4 with h4 | h4
  · exact absurd h4 (by decide)
  obtain ⟨c5, rfl, h5⟩ := stepThumb 'l' _ c4 (fun h => absurd h (by decide)) h4
  rcases h5 with h5 | h5
  · exact absurd h5 (by decide)
  obtain ⟨c6, rfl, _⟩ := stepThumb '/' [] c5 (fun _ => .inl rfl) h5
  simp [List.cons_prefix_cons]

theorem chain_thumb_over_thumb (l : List Char)
    (hp : ['t', 'h', 'u', 'm', 'b', '/'] <+: replThumb l) :
    ['t', 'h', 'u', 'm', 'b', '/'] <+: l := by
  obtain ⟨c1, rfl, h1⟩ := stepThumb 't' _ l (fun h => absurd h (by decide)) hp
  rcases h1 with h1 | h1
  · exact absurd h1 (by decide)
  obtain ⟨c2, rfl, h2⟩ := stepThumb 'h' _ c1 (fun h => absurd h (by decide)) h1
  rcases h2 with h2 | h2
  · exact absurd h2 (by decide)
  obtain ⟨c3, rfl, h3⟩ := stepThumb 'u' _ c2 (fun h => absurd h (by decide)) h2
  rcases h3 with h3 | h3
  · exact absurd h3 (by decide)
  obtain ⟨c4, rfl, h4⟩ := stepThumb 'm' _ c3 (fun h => absurd h (by decide)) h3
  rcases h4 with h4 | h4
  · exact absurd h4 (by decide)
  obtain ⟨c5, rfl, h5⟩ := stepThumb 'b' _ c4 (fun h => absurd h (by decide)) h4
  rcases h5 with h5 | h5
  · exact absurd h5 (by decide)
  obtain ⟨c6, rfl, _⟩ := stepThumb '/' [] c5 (fun _ => .inl rfl) h5
  simp [List.cons_prefix_cons]

theorem chain_thumbthumb_over_small (l : List Char)
    (hp : ['t', 'h', 'u', 'm', 'b', '/', 't', 'h', 'u', 'm', 'b', '/'] <+: replSmall l) :
    ['t', 'h', 'u', 'm', 'b', '/', 't', 'h', 'u', 'm', 'b', '/'] <+: l := by
  obtain ⟨c1, rfl, h1⟩ := stepSmall 't' _ l (fun h => absurd h (by decide)) hp
  rcases h1 with h1 | h1
  · exact absurd h1 (by decide)
  obtain ⟨c2, rfl, h2⟩ := stepSmall 'h' _ c1 (fun h => absurd h (by decide)) h1
  rcases h2 with h2 | h2
  · exact absurd h2 (by decide)
  obtain ⟨c3, rfl, h3⟩ := stepSmall 'u' _ c2 (fun h => absurd h (by decide)) h2
  rcases h3 with h3 | h3
  · exact absurd h3 (by decide)
  obtain ⟨c4, rfl, h4⟩ := stepSmall 'm' _ c3 (fun h => absurd h (by decide)) h3
  rcases h4 with h4 | h4
  · exact absurd h4 (by decide)
  obtain ⟨c5, rfl, h5⟩ := stepSmall 'b' _ c4 (fun h => absurd h (by decide)) h4
  rcases h5 with h5 | h5
  · exact absurd h5 (by decide)
  obtain ⟨c6, rfl, h6⟩ := stepSmall '/' _ c5
    (fun _ => .inr (head_ne_cons_aux (by decide) _)) h5
  rcases h6 with h6 | h6
  · exact absurd h6 (by decide)
  obtain ⟨c7, rfl, h7⟩ := stepSmall 't' _ c6 (fun h => absurd h (by decide)) h6
  rcases h7 with h7 | h7
  · exact absurd h7 (by decide)
  obtain ⟨c8, rfl, h8⟩ := stepSmall 'h' _ c7 (fun h => absurd h (by decide)) h7
  rcases h8 with h8 | h8
  · exact absurd h8 (by decide)
  obtain ⟨c9, rfl, h9⟩ := stepSmall 'u' _ c8 (fun h => absurd h (by decide)) h8
  rcases h9 with h9 | h9
  · exact absurd h9 (by decide)
  obtain ⟨c10, rfl, h10⟩ := stepSmall 'm' _ c9 (fun h => absurd h (by decide)) h9
  rcases h10 with h10 | h10
  · exact absurd h10 (by decide)
  obtain ⟨c11, rfl, h11⟩ := stepSmall 'b' _ c10 (fun h => absurd h (by decide)) h10
  rcases h11 with h11 | h11
  · exact absurd h11 (by decide)
  obtain ⟨c12, rfl, _⟩ := stepSmall '/' [] c11 (fun _ => .inl rfl) h11
  simp [List.cons_prefix_cons]

theorem no_small_after_small : ∀ l : List Char,
    ¬ (['/', 's', 'm', 'a', 'l', 'l', '/', 's', 'm', 'a', 'l', 'l', '/'] <:+: l) →
    ¬ (['/', 's', 'm', 'a', 'l', 'l', '/'] <:+: replSmall l) := by
  intro l
  induction l using replSmall.induct
  case _ rest ih =>
    intro hbad hsmall
    rw [show replSmall ('/' :: 's' :: 'm' :: 'a' :: 'l' :: 'l' :: '/' :: rest) =
      '/' :: 'b' :: 'i' :: 'g' :: '/' :: replSmall rest from by simp [replSmall]] at hsmall
    simp only [List.infix_cons_iff] at hsmall
    rcases hsmall with h | h | h | h | h | h
    · simp [List.cons_prefix_cons] at h
    · simp [List.cons_prefix_cons] at h
    · simp [List.cons_prefix_cons] at h
    · simp [List.cons_prefix_cons] at h
    · rw [List.cons_prefix_cons] at h
      obtain ⟨r, rfl⟩ := chain_small_over_small rest h.2
      exact hbad ⟨[], r, by simp⟩
    · exact ih (fun hb => hbad
        (hb.trans ⟨['/', 's', 'm', 'a', 'l', 'l', '/'], [], by simp⟩)) h
  case _ c cs hcon ih =>
    intro hbad hsmall
    rw [replSmall_eq_cons c cs (fun rest heq => by
      injection heq with e1 e2
      exact hcon rest e1 e2)] at hsmall
    rw [List.infix_cons_iff] at hsmall
    rcases hsmall with h | h
    · rw [List.cons_prefix_cons] at h
      obtain ⟨r, rfl⟩ := chain_small_over_small cs h.2
      exact hcon r h.1.symm (by simp)
    · exact ih (fun hb => hbad (List.infix_cons_iff.mpr (.inr hb))) h
  case _ =>
    intro _ h
    simp [replSmall] at h

theorem no_thumbthumb_after_small : ∀ l : List Char,
    ¬ (['/', 't', 'h', 'u', 'm', 'b', '/', 't', 'h', 'u', 'm', 'b', '/'] <:+: l) →
    ¬ (['/', 't', 'h', 'u', 'm', 'b', '/', 't', 'h', 'u', 'm', 'b', '/'] <:+:
        replSmall l) := by
  intro l
  induction l using replSmall.induct
  case _ rest ih =>
    intro hbad hth
    rw [show replSmall ('/' :: 's' :: 'm' :: 'a' :: 'l' :: 'l' :: '/' :: rest) =
      '/' :: 'b' :: 'i' :: 'g' :: '/' :: replSmall rest from by simp [replSmall]] at hth
    simp only [List.infix_cons_iff] at hth
    rcases hth with h | h | h | h | h | h
    · simp [List.cons_prefix_cons] at h
    · simp [List.cons_prefix_cons] at h
    · simp [List.cons_prefix_cons] at h
    · simp [List.cons_prefix_cons] at h
    · rw [List.cons_prefix_cons] at h
      obtain ⟨r, rfl⟩ := chain_thumbthumb_over_small rest h.2
      exact hbad ⟨['/', 's', 'm', 'a', 'l', 'l'], r, by simp⟩
    · exact ih (fun hb => hbad
        (hb.trans ⟨['/', 's', 'm', 'a', 'l', 'l', '/'], [], by simp⟩)) h
  case _ c cs hcon ih =>
    intro hbad hth
    rw [replSmall_eq_cons c cs (fun rest heq => by
      injection heq with e1 e2
      exact hcon rest e1 e2)] at hth
    rw [List.infix_cons_iff] at hth
    rcases hth with h | h
    · rw [List.cons_prefix_cons] at h
      obtain ⟨r, rfl⟩ := chain_thumbthumb_over_small cs h.2
      refine hbad ⟨[], r, ?_⟩
      rw [← h.1]
      simp
    · exact ih (fun hb => hbad (List.infix_cons_iff.mpr (.inr hb))) h
  case _ =>
    intro _ h
    simp [replSmall] at h

theorem no_thumb_after_thumb : ∀ l : List Char,
    ¬ (['/', 't', 'h', 'u', 'm', 'b', '/', 't', 'h', 'u', 'm', 'b', '/'] <:+: l) →
    ¬ (['/', 't', 'h', 'u', 'm', 'b', '/'] <:+: replThumb l) := by
  intro l
  induction l using replThumb.induct
  case _ rest ih =>
    intro hbad hth
    rw [show replThumb ('/' :: 't' :: 'h' :: 'u' :: 'm' :: 'b' :: '/' :: rest) =
      '/' :: 'b' :: 'i' :: 'g' :: '/' :: replThumb rest from by simp [replThumb]] at hth
    simp only [List.infix_cons_iff] at hth
    rcases hth with h | h | h | h | h | h
    · simp [List.cons_prefix_cons] at h
    · simp [List.cons_prefix_cons] at h
    · simp [List.cons_prefix_cons] at h
    · simp [List.cons_prefix_cons] at h
    · rw [List.cons_prefix_cons] at h
      obtain ⟨r, rfl⟩ := chain_thumb_over_thumb rest h.2
      exact hbad ⟨[], r, by simp⟩
    · exact ih (fun hb => hbad
        (hb.trans ⟨['/', 't', 'h', 'u', 'm', 'b', '/'], [], by simp⟩)) h
  case _ c cs hcon ih =>
    intro hbad hth
    rw [replThumb_eq_cons c cs (fun rest heq => by
      injection heq with e1 e2
      exact hcon rest e1 e2)] at hth
    rw [List.infix_cons_iff] at hth
    rcases hth with h | h
    · rw [List.cons_prefix_cons] at h
      obtain ⟨r, rfl⟩ := chain_thumb_over_thumb cs h.2
      exact hcon r h.1.symm (by simp)
    · exact ih (fun hb => hbad (List.infix_cons_iff.mpr (.inr hb))) h
  case _ =>
    intro _ h
    simp [replThumb] at h

theorem no_small_after_thumb : ∀ l : List Char,
    ¬ (['/', 's', 'm', 'a', 'l', 'l', '/'] <:+: l) →
    ¬ (['/', 's', 'm', 'a', 'l', 'l', '/'] <:+: replThumb l) := by
  intro l
  induction l using replThumb.induct
  case _ rest ih =>
    intro hbad hsmall
    rw [show replThumb ('/' :: 't' :: 'h' :: 'u' :: 'm' :: 'b' :: '/' :: rest) =
      '/' :: 'b' :: 'i' :: 'g' :: '/' :: replThumb rest from by simp [replThumb]] at hsmall
    simp only [List.infix_cons_iff] at hsmall
    rcases hsmall with h | h | h | h | h | h
    · simp [List.cons_prefix_cons] at h
    · simp [List.cons_prefix_cons] at h
    · simp [List.cons_prefix_cons] at h
    · simp [List.cons_prefix_cons] at h
    · rw [List.cons_prefix_cons] at h
      obtain ⟨r, rfl⟩ := chain_small_over_thumb rest h.2
      exact hbad ⟨['/', 't', 'h', 'u', 'm', 'b'], r, by simp⟩
    · exact ih (fun hb => hbad
        (hb.trans ⟨['/', 't', 'h', 'u', 'm', 'b', '/'], [], by simp⟩)) h
  case _ c cs hcon ih =>
    intro hbad hsmall
    rw [replThumb_eq_cons c cs (fun rest heq => by
      injection heq with e1 e2
      exact hcon rest e1 e2)] at hsmall
    rw [List.infix_cons_iff] at hsmall
    rcases hsmall with h | h
    · rw [List.cons_prefix_cons] at h
      obtain ⟨r, rfl⟩ := chain_small_over_thumb cs h.2
      refine hbad ⟨[], r, ?_⟩
      rw [← h.1]
      simp
    · exact ih (fun hb => hbad (List.infix_cons_iff.mpr (.inr hb))) h
  case _ =>
    intro _ h
    simp [replThumb] at h

theorem replSmall_id_of_no_small : ∀ l : List Char,
    ¬ (['/', 's', 'm', 'a', 'l', 'l', '/'] <:+: l) → replSmall l = l := by
  intro l
  induction l using replSmall.induct
  case _ rest ih =>
    intro h
    exact absurd ⟨[], rest, by simp⟩ h
  case _ c cs hcon ih =>
    intro h
    rw [replSmall_eq_cons c cs (fun rest heq => by
      injection heq with e1 e2
      exact hcon rest e1 e2),
      ih (fun hb => h (List.infix_cons_iff.mpr (.inr hb)))]
  case _ =>
    intro _
    rfl

theorem replThumb_id_of_no_thumb : ∀ l : List Char,
    ¬ (['/', 't', 'h', 'u', 'm', 'b', '/'] <:+: l) → replThumb l = l := by
  intro l
  induction l using replThumb.induct
  case _ rest ih =>
    intro h
    exact absurd ⟨[], rest, by simp⟩ h
  case _ c cs hcon ih =>
    intro h
    rw [replThumb_eq_cons c cs (fun rest heq => by
      injection heq with e1 e2
      exact hcon rest e1 e2),
      ih (fun hb => h (List.infix_cons_iff.mpr (.inr hb)))]
  case _ =>
    intro _
    rfl

/-- Claim C7 (amended): image-URL normalization.  For every URL without
consecutive overlapping segments (no `/small/small/` and no
`/thumb/thumb/` substring), the normalization applied in
`extractImages` rewrites every `/small/` and `/thumb/` segment to
`/big/` — the result contains neither — and re-applying it leaves the
URL unchanged.  On overlapping segments such as `/small/small/` the
global-replace semantics leaves the second occurrence in place and a
second application rewrites it again (see the counterexample). -/
theorem C7_image_normalization (u : String)
    (h1 : ¬ ("/small/small/".data <:+: u.data))
    (h2 : ¬ ("/thumb/thumb/".data <:+: u.data)) :
    ¬ ("/small/".data <:+: (normalizeImageUrl u).data) ∧
    ¬ ("/thumb/".data <:+: (normalizeImageUrl u).data) ∧
    normalizeImageUrl (normalizeImageUrl u) = normalizeImageUrl u := by
  have e1 : "/small/small/".data =
      ['/', 's', 'm', 'a', 'l', 'l', '/', 's', 'm', 'a', 'l', 'l', '/'] := rfl
  have e2 : "/thumb/thumb/".data =
      ['/', 't', 'h', 'u', 'm', 'b', '/', 't', 'h', 'u', 'm', 'b', '/'] := rfl
  have e3 : "/small/".data = ['/', 's', 'm', 'a', 'l', 'l', '/'] := rfl
  have e4 : "/thumb/".data = ['/', 't', 'h', 'u', 'm', 'b', '/'] := rfl
  rw [e1] at h1
  rw [e2] at h2
  have hd : (normalizeImageUrl u).data = replThumb (replSmall u.data) := rfl
  have hs : ¬ (['/', 's', 'm', 'a', 'l', 'l', '/'] <:+: replThumb (replSmall u.data)) :=
    no_small_after_thumb _ (no_small_after_small _ h1)
  have ht : ¬ (['/', 't', 'h', 'u', 'm', 'b', '/'] <:+: replThumb (replSmall u.data)) :=
    no_thumb_after_thumb _ (no_thumbthumb_after_small _ h2)
  refine ⟨by rw [hd, e3]; exact hs, by rw [hd, e4]; exact ht, ?_⟩
  show (⟨replThumb (replSmall (normalizeImageUrl u).data)⟩ : String) = normalizeImageUrl u
  rw [hd, replSmall_id_of_no_small _ hs, replThumb_id_of_no_thumb _ ht]
  rfl

theorem C7_counterexample :
    ("/small/".data <:+:
      (normalizeImageUrl "https://images.avto.net/small/small/1.jpg").data) ∧
    normalizeImageUrl (normalizeImageUrl "https://images.avto.net/small/small/1.jpg") ≠
      normalizeImageUrl "https://images.avto.net/small/small/1.jpg" := by
  decide

theorem C7_image_normalization_witness :
    ¬ ("/small/".data <:+:
      (normalizeImageUrl "https://images.avto.net/thumb/small/3.jpg").data) ∧
    ¬ ("/thumb/".data <:+:
      (normalizeImageUrl "https://images.avto.net/thumb/small/3.jpg").data) ∧
    normalizeImageUrl (normalizeImageUrl "https://images.avto.net/thumb/small/3.jpg") =
      normalizeImageUrl "https://images.avto.net/thumb/small/3.jpg" :=
  C7_image_normalization _ (by decide) (by decide)

end Scraper
